import Mathlib

/-!
Hospital priority management: shallow embedding of `HospitalManagement.cpp`

The program keeps an emergency-room waiting list in a
`std::priority_queue<Patient, std::vector<Patient>, ComparePriority>` and a
`std::vector<Patient>` of treated patients.  This file embeds

* `Patient` and `ComparePriority` (lines 10-30 of the source),
* the binary-heap routines that `std::priority_queue` runs on its vector
  (`push_back` + `std::push_heap`, `std::pop_heap` + `pop_back`, `front`),
  transcribed from the GNU implementation in `bits/stl_heap.h` and
  `bits/stl_queue.h`,
* `ERManager` with `addPatient`, `treatNextPatient`, `displayQueue`,
  `displayTreated` and `displayDashboard` (lines 32-169).

Conventions.  A `std::vector` is a `List`; `int`, `long` and `time_t` values are
unbounded `Int`s (the program overflows none of them before 2^31 - 1001
patients have been admitted); the clock value returned by `time(nullptr)` is an
explicit argument `now`; the text a `void` method writes to `cout` is
summarised by a result value.  A `while` loop is a recursion on a fuel argument
that is at least the number of iterations the loop can make, and for each loop
it is proved that the recursion stops because the loop condition fails, not
because the fuel runs out (`push_heap_aux_eq`, `adjust_heap_loop_exit`,
`treatUntilEmpty_drain`, `displayQueueLoop_eq_treat`).

The heap routines are those of GNU libstdc++.  The theorems that hold for every
state or session use of them only that `push` and `pop` rearrange the vector
and keep it a heap; the one statement that depends on how ties are laid out in
the vector is `next_case_ignores_patientID`.
-/

set_option autoImplicit false

/-! ## Patients and the comparator -/

/-- The `struct Patient` of the source. -/
structure Patient where
  name : String
  severity : Int
  condition : String
  arrivalTime : Int
  patientID : Int
deriving DecidableEq, Repr, Inhabited

/-- The constructor `Patient(n, s, c, id)`; it stamps `arrivalTime = time(nullptr)`,
here the argument `now`. -/
def Patient.create (n : String) (s : Int) (c : String) (id : Int) (now : Int) : Patient :=
  { name := n, severity := s, condition := c, arrivalTime := now, patientID := id }

/-- The call operator `ComparePriority::operator()`: `true` when `p1` ranks
below `p2` in the max-heap. -/
def ComparePriority (p1 p2 : Patient) : Bool :=
  if p1.severity == p2.severity then
    decide (p1.arrivalTime > p2.arrivalTime)
  else
    decide (p1.severity < p2.severity)

/-! ## The heap routines of `std::priority_queue` -/

namespace stl

variable {α : Type} [Inhabited α]

/-- The `while` loop of `std::__push_heap`, followed by the final store
`*(first + holeIndex) = value`. -/
def push_heap_loop (comp : α → α → Bool) :
    Nat → List α → Nat → Nat → α → List α
  | 0, first, holeIndex, _, value => first.set holeIndex value
  | fuel + 1, first, holeIndex, topIndex, value =>
    let parent := (holeIndex - 1) / 2
    if holeIndex > topIndex && comp (first.getD parent default) value then
      push_heap_loop comp fuel (first.set holeIndex (first.getD parent default))
        parent topIndex value
    else
      first.set holeIndex value

/-- The function `std::__push_heap(first, holeIndex, topIndex, value, comp)`. -/
def push_heap_aux (comp : α → α → Bool) (first : List α) (holeIndex topIndex : Nat)
    (value : α) : List α :=
  push_heap_loop comp holeIndex first holeIndex topIndex value

/-- The function `std::push_heap(first, last, comp)` on the whole vector: the
last element is the value to sift up. -/
def push_heap (comp : α → α → Bool) (c : List α) : List α :=
  let value := c.getD (c.length - 1) default
  push_heap_aux comp c (c.length - 1) 0 value

/-- The first `while` loop of `std::__adjust_heap`; returns the vector,
`holeIndex` and `secondChild` at loop exit. -/
def adjust_heap_loop (comp : α → α → Bool) :
    Nat → List α → Nat → Nat → Nat → List α × Nat × Nat
  | 0, first, holeIndex, secondChild, _ => (first, holeIndex, secondChild)
  | fuel + 1, first, holeIndex, secondChild, len =>
    if secondChild < (len - 1) / 2 then
      let secondChild1 := 2 * (secondChild + 1)
      let secondChild2 :=
        if comp (first.getD secondChild1 default) (first.getD (secondChild1 - 1) default)
        then secondChild1 - 1 else secondChild1
      adjust_heap_loop comp fuel (first.set holeIndex (first.getD secondChild2 default))
        secondChild2 secondChild2 len
    else
      (first, holeIndex, secondChild)

/-- The function `std::__adjust_heap(first, holeIndex, len, value, comp)`.  It is
called with `len ≥ 1` only, where `(len - 1) / 2` and `(len - 2) / 2` (the latter
evaluated for even `len`) are the same in `ptrdiff_t` and in `Nat`. -/
def adjust_heap (comp : α → α → Bool) (first : List α) (holeIndex len : Nat)
    (value : α) : List α :=
  let topIndex := holeIndex
  let r := adjust_heap_loop comp len first holeIndex holeIndex len
  let first1 := r.1
  let holeIndex1 := r.2.1
  let secondChild1 := r.2.2
  if len % 2 == 0 && secondChild1 == (len - 2) / 2 then
    let secondChild2 := 2 * (secondChild1 + 1)
    push_heap_aux comp (first1.set holeIndex1 (first1.getD (secondChild2 - 1) default))
      (secondChild2 - 1) topIndex value
  else
    push_heap_aux comp first1 holeIndex1 topIndex value

/-- The function `std::pop_heap(first, last, comp)` on the whole vector: with
more than one element, `--last`, then `__pop_heap(first, last, last)` saves
`*last`, stores `*first` there and adjusts the heap `[first, last)`. -/
def pop_heap (comp : α → α → Bool) (c : List α) : List α :=
  if c.length > 1 then
    let last := c.length - 1
    let value := c.getD last default
    adjust_heap comp (c.set last (c.getD 0 default)) 0 last value
  else
    c

/-- A `std::priority_queue<α, std::vector<α>, Compare>`: its only data member
is the container `c`. -/
structure priority_queue (α : Type) where
  c : List α
deriving DecidableEq, Repr

namespace priority_queue

/-- The member `empty()`. -/
def empty (q : priority_queue α) : Bool := q.c.isEmpty

/-- The member `size()`. -/
def size (q : priority_queue α) : Nat := q.c.length

/-- The member `top()`, that is `c.front()`. -/
def top (q : priority_queue α) : α := q.c.getD 0 default

/-- The member `push(x)`: `c.push_back(x); std::push_heap(c.begin(), c.end(), comp)`. -/
def push (comp : α → α → Bool) (q : priority_queue α) (x : α) : priority_queue α :=
  ⟨push_heap comp (q.c ++ [x])⟩

/-- The member `pop()`: `std::pop_heap(c.begin(), c.end(), comp); c.pop_back()`. -/
def pop (comp : α → α → Bool) (q : priority_queue α) : priority_queue α :=
  ⟨(pop_heap comp q.c).dropLast⟩

end priority_queue

end stl

/-! ## The emergency-room manager -/

/-- The data members of `class ERManager`. -/
structure ERManager where
  waitingQueue : stl.priority_queue Patient
  treatedPatients : List Patient
  nextPatientID : Int
deriving DecidableEq, Repr

/-- The constructor `ERManager() : nextPatientID(1001)`. -/
def ERManager.init : ERManager :=
  { waitingQueue := ⟨[]⟩, treatedPatients := [], nextPatientID := 1001 }

/-- What `addPatient` reports on `cout`: the `Invalid severity!` line, or the
`Patient Added!` block for the patient created. -/
inductive AddOutcome where
  | invalidSeverity
  | patientAdded (p : Patient)
deriving DecidableEq, Repr

/-- What `treatNextPatient` reports on `cout`: the `No patients waiting` line,
or the `NOW TREATING` block for the patient treated with the `waitTime`
printed after `Waited:`. -/
inductive TreatOutcome where
  | noPatientsWaiting
  | nowTreating (p : Patient) (waitTime : Int)
deriving DecidableEq, Repr

namespace ERManager

/-- The method `addPatient(name, severity, condition)`. -/
def addPatient (er : ERManager) (name : String) (severity : Int) (condition : String)
    (now : Int) : ERManager × AddOutcome :=
  if severity < 1 || severity > 5 then
    (er, AddOutcome.invalidSeverity)
  else
    let p := Patient.create name severity condition er.nextPatientID now
    ({ er with
        nextPatientID := er.nextPatientID + 1
        waitingQueue := er.waitingQueue.push ComparePriority p },
     AddOutcome.patientAdded p)

/-- The method `treatNextPatient()`; `now` is the value of `time(nullptr)` read
for `waitTime`. -/
def treatNextPatient (er : ERManager) (now : Int) : ERManager × TreatOutcome :=
  if er.waitingQueue.empty then
    (er, TreatOutcome.noPatientsWaiting)
  else
    let p := er.waitingQueue.top
    let waitTime := now - p.arrivalTime
    ({ er with
        waitingQueue := er.waitingQueue.pop ComparePriority
        treatedPatients := er.treatedPatients ++ [p] },
     TreatOutcome.nowTreating p waitTime)

/-- The loop `while (!temp.empty()) { p = temp.top(); temp.pop(); print p }` of
`displayQueue`; returns the patients in the order their rows are printed. -/
def displayQueueLoop : Nat → stl.priority_queue Patient → List Patient
  | 0, _ => []
  | fuel + 1, temp =>
    if !temp.empty then
      let p := temp.top
      p :: displayQueueLoop fuel (temp.pop ComparePriority)
    else
      []

/-- The method `displayQueue()`: the manager afterwards, and the table rows
printed (none when the queue is empty and only `Waiting Queue: Empty` is
printed).  The loop drains the copy `temp`, never `waitingQueue`. -/
def displayQueue (er : ERManager) : ERManager × List Patient :=
  if er.waitingQueue.empty then
    (er, [])
  else
    let temp := er.waitingQueue
    (er, displayQueueLoop temp.size temp)

/-- The method `displayTreated()`: the manager afterwards and the table rows
printed (none when only `Treated Patients: None yet` is printed). -/
def displayTreated (er : ERManager) : ERManager × List Patient :=
  if er.treatedPatients.isEmpty then
    (er, [])
  else
    (er, er.treatedPatients)

end ERManager

/-- The figures `displayDashboard` prints: the three statistics and, when the
queue is not empty, the next priority case. -/
structure Dashboard where
  patientsWaiting : Nat
  patientsTreated : Nat
  totalProcessed : Nat
  nextPriorityCase : Option Patient
deriving DecidableEq, Repr

namespace ERManager

/-- The method `displayDashboard()`. -/
def displayDashboard (er : ERManager) : ERManager × Dashboard :=
  (er,
   { patientsWaiting := er.waitingQueue.size
     patientsTreated := er.treatedPatients.length
     totalProcessed := er.waitingQueue.size + er.treatedPatients.length
     nextPriorityCase := if !er.waitingQueue.empty then some er.waitingQueue.top else none })

end ERManager

/-! ## The menu loop of `main` -/

/-- One menu choice of `main` together with the input it reads; `now` is the
clock value the call will read. -/
inductive Op where
  | addPatient (name : String) (severity : Int) (condition : String) (now : Int)
  | treatNextPatient (now : Int)
  | displayQueue
  | displayTreated
  | displayDashboard
deriving DecidableEq, Repr

/-- What one menu choice printed. -/
inductive Event where
  | added (o : AddOutcome)
  | treated (o : TreatOutcome)
  | queueShown (rows : List Patient)
  | treatedShown (rows : List Patient)
  | dashboardShown (d : Dashboard)
deriving DecidableEq, Repr

/-- The dispatch on `choice` in `main` (choices 1 to 5). -/
def step (er : ERManager) : Op → ERManager × Event
  | Op.addPatient name severity condition now =>
    let r := er.addPatient name severity condition now
    (r.1, Event.added r.2)
  | Op.treatNextPatient now =>
    let r := er.treatNextPatient now
    (r.1, Event.treated r.2)
  | Op.displayQueue =>
    let r := er.displayQueue
    (r.1, Event.queueShown r.2)
  | Op.displayTreated =>
    let r := er.displayTreated
    (r.1, Event.treatedShown r.2)
  | Op.displayDashboard =>
    let r := er.displayDashboard
    (r.1, Event.dashboardShown r.2)

/-- The `while (true)` loop of `main` over a finite list of choices: the final
manager and what each choice printed. -/
def run : ERManager → List Op → ERManager × List Event
  | er, [] => (er, [])
  | er, op :: ops =>
    let r := step er op
    let rs := run r.1 ops
    (rs.1, r.2 :: rs.2)

/-- The patients created by the accepted `addPatient` calls of a session, in
call order. -/
def acceptedPatients : List Event → List Patient
  | [] => []
  | Event.added (AddOutcome.patientAdded p) :: es => p :: acceptedPatients es
  | _ :: es => acceptedPatients es

/-- The patients treated by the `treatNextPatient` calls of a session that
found the queue non-empty, in call order. -/
def servedPatients : List Event → List Patient
  | [] => []
  | Event.treated (TreatOutcome.nowTreating p _) :: es => p :: servedPatients es
  | _ :: es => servedPatients es

/-- Choice 2 repeated until the waiting queue is empty: `treatNextPatient` is
called while `waitingQueue` is not empty, the call made with `fuel` calls left
reading the clock value `clock fuel`.  Returns the final manager and the
patients treated, in order. -/
def treatUntilEmpty (clock : Nat → Int) : Nat → ERManager → ERManager × List Patient
  | 0, er => (er, [])
  | fuel + 1, er =>
    if er.waitingQueue.empty then
      (er, [])
    else
      let r := er.treatNextPatient (clock fuel)
      let rs := treatUntilEmpty clock fuel r.1
      (rs.1, er.waitingQueue.top :: rs.2)

/-- A submission: the arguments of one `addPatient` call and the clock value it
reads. -/
structure Submission where
  name : String
  severity : Int
  condition : String
  now : Int
deriving DecidableEq, Repr

/-- Choice 1 repeated: one `addPatient` call per submission, in order. -/
def addAll : ERManager → List Submission → ERManager
  | er, [] => er
  | er, s :: ss => addAll (er.addPatient s.name s.severity s.condition s.now).1 ss

/-- Choice 2 made `k` times, the call with `k` calls left reading `clock k`. -/
def treatTimes (clock : Nat → Int) : Nat → ERManager → ERManager
  | 0, er => er
  | k + 1, er => treatTimes clock k (er.treatNextPatient (clock k)).1

/-! ## Specification vocabulary -/

/-- The order in which the claims say patients are served: `a` may be served
before `b` when `a` is at least as severe and, at equal severity, arrived no
later. -/
def ServedBefore (a b : Patient) : Prop :=
  b.severity ≤ a.severity ∧ (a.severity = b.severity → a.arrivalTime ≤ b.arrivalTime)

/-- The three-part key of the specification: severity descending, then
`arrivalTime` ascending, then `patientID` ascending. -/
def KeyLe (a b : Patient) : Prop :=
  b.severity < a.severity ∨
    (a.severity = b.severity ∧
      (a.arrivalTime < b.arrivalTime ∨
        (a.arrivalTime = b.arrivalTime ∧ a.patientID ≤ b.patientID)))

instance (a b : Patient) : Decidable (ServedBefore a b) := by
  unfold ServedBefore; infer_instance

instance (a b : Patient) : Decidable (KeyLe a b) := by
  unfold KeyLe; infer_instance

namespace stl

variable {α : Type} [Inhabited α]

/-- The requirement of the standard library on `Compare`: a strict weak
ordering, given as irreflexivity, transitivity and transitivity of
"not less than". -/
structure StrictWeak (comp : α → α → Bool) : Prop where
  irrefl : ∀ a, comp a a = false
  trans : ∀ a b c, comp a b = true → comp b c = true → comp a c = true
  negTrans : ∀ a b c, comp a b = false → comp b c = false → comp a c = false

/-- The heap property on the first `n` elements of a vector (what
`std::is_heap` checks): no element compares below its child. -/
def IsHeap (comp : α → α → Bool) (c : List α) (n : Nat) : Prop :=
  ∀ i, 0 < i → i < n → comp (c.getD ((i - 1) / 2) default) (c.getD i default) = false

end stl

/-- The class invariant of `std::priority_queue`: the container is a heap. -/
def HeapInv (er : ERManager) : Prop :=
  stl.IsHeap ComparePriority er.waitingQueue.c er.waitingQueue.c.length

/-- Every submission of the list has a severity in 1..5. -/
def ValidSubmissions (subs : List Submission) : Prop :=
  ∀ s ∈ subs, 1 ≤ s.severity ∧ s.severity ≤ 5

instance (subs : List Submission) : Decidable (ValidSubmissions subs) := by
  unfold ValidSubmissions; infer_instance

/-- The patients that accepting every submission of the list creates, the
first one with identifier `base`. -/
def submittedPatients (base : Int) : List Submission → List Patient
  | [] => []
  | s :: ss =>
    Patient.create s.name s.severity s.condition base s.now :: submittedPatients (base + 1) ss

/-- The number of accepted `addPatient` calls of a session. -/
def acceptedCount (es : List Event) : Nat := (acceptedPatients es).length

/-- The number of `treatNextPatient` calls of a session that found the queue
non-empty. -/
def servedCount (es : List Event) : Nat := (servedPatients es).length

/-- The scenario of the specification: A (3), B (5), C (3) submitted in that
order at the clock values 100, 101, 102. -/
def scenarioABC : List Submission :=
  [⟨"A", 3, "fever", 100⟩, ⟨"B", 5, "chest pain", 101⟩, ⟨"C", 3, "cough", 102⟩]

/-- Four patients of severity 3 admitted within the same second (clock value
100), then one `treatNextPatient` call. -/
def sameSecondSession : List Op :=
  [Op.addPatient "P1" 3 "fever" 100, Op.addPatient "P2" 3 "cough" 100,
   Op.addPatient "P3" 3 "sprain" 100, Op.addPatient "P4" 3 "rash" 100,
   Op.treatNextPatient 101]

/-- A session with rejected submissions, a call on the empty queue and display
calls interleaved. -/
def mixedSession : List Op :=
  [Op.treatNextPatient 5, Op.addPatient "A" 3 "fever" 10, Op.addPatient "X" 0 "none" 11,
   Op.displayQueue, Op.addPatient "B" 5 "chest pain" 12, Op.addPatient "Y" 7 "none" 13,
   Op.displayDashboard, Op.treatNextPatient 14, Op.displayTreated,
   Op.addPatient "C" 3 "cough" 15]

/-- The wait a `treatNextPatient` call printed after `Waited:`, if it treated
a patient. -/
def reportedWait : TreatOutcome → Option Int
  | TreatOutcome.noPatientsWaiting => none
  | TreatOutcome.nowTreating _ waitTime => some waitTime

/-- A clock that stands still at `t`. -/
def constClock (t : Int) : Nat → Int := fun _ => t

/-- Two patients waiting: "A" (severity 3) and "B" (severity 5). -/
def twoWaiting : ERManager := (run ERManager.init
  [Op.addPatient "A" 3 "fever" 10, Op.addPatient "B" 5 "chest pain" 12]).1

/-- One patient waiting, admitted at clock value 10. -/
def oneWaiting : ERManager := (run ERManager.init [Op.addPatient "A" 3 "fever" 10]).1

/-- Five patients waiting after a mixed sequence of admissions and one
treatment. -/
def fiveWaiting : ERManager := (run ERManager.init
  [Op.addPatient "A" 2 "cut" 10, Op.addPatient "B" 4 "fracture" 11,
   Op.addPatient "C" 4 "burn" 11, Op.addPatient "D" 1 "cold" 12,
   Op.treatNextPatient 13, Op.addPatient "E" 5 "stroke" 14,
   Op.addPatient "F" 3 "fever" 15, Op.addPatient "G" 2 "rash" 15]).1

/-! ## Lists as vectors: reading and storing at an index -/

section ListFacts

variable {α : Type}

theorem getD_set_self (xs : List α) (i : Nat) (v d : α) (h : i < xs.length) :
    (xs.set i v).getD i d = v := by
  simp [List.getD_eq_getElem?_getD, List.getElem?_set, h]

theorem getD_set_other (xs : List α) (i j : Nat) (v d : α) (h : i ≠ j) :
    (xs.set i v).getD j d = xs.getD j d := by
  simp [List.getD_eq_getElem?_getD, List.getElem?_set, h]

/-- Storing `a` at index `j` and putting the old element in front is a
rearrangement of `a :: t`. -/
theorem cons_set_perm (d a : α) : ∀ (t : List α) (j : Nat), j < t.length →
    List.Perm (t.getD j d :: t.set j a) (a :: t)
  | [], _, h => by simp at h
  | b :: t, 0, _ => by
    simpa using List.Perm.swap a b t
  | b :: t, j + 1, h => by
    have ih := cons_set_perm d a t j (by simpa using h)
    simp only [List.getD_cons_succ, List.set_cons_succ]
    exact (List.Perm.swap b (t.getD j d) (t.set j a)).trans
      ((ih.cons b).trans (List.Perm.swap a b t))

/-- Exchanging two elements of a vector rearranges it. -/
theorem swap_perm (d : α) : ∀ (xs : List α) (i j : Nat), i < xs.length → j < xs.length →
    List.Perm ((xs.set i (xs.getD j d)).set j (xs.getD i d)) xs
  | [], _, _, h, _ => by simp at h
  | a :: t, 0, 0, _, _ => by simp
  | a :: t, 0, j + 1, _, hj => by
    simpa using cons_set_perm d a t j (by simpa using hj)
  | a :: t, i + 1, 0, hi, _ => by
    simpa using cons_set_perm d a t i (by simpa using hi)
  | a :: t, i + 1, j + 1, hi, hj => by
    simpa using swap_perm d t i j (by simpa using hi) (by simpa using hj)

/-- Moving the hole: copying `xs[j]` into the hole `i` and then filling `j`
holds the same elements as filling the hole `i` directly. -/
theorem set_move_perm (d : α) (xs : List α) (i j : Nat) (v : α) (hi : i < xs.length)
    (hj : j < xs.length) (hij : i ≠ j) :
    List.Perm ((xs.set i (xs.getD j d)).set j v) (xs.set i v) := by
  have h := swap_perm d (xs.set i v) i j (by simpa using hi) (by simpa using hj)
  rw [getD_set_other _ _ _ _ _ hij, getD_set_self _ _ _ _ hi, List.set_set] at h
  exact h

end ListFacts


/-! ## Sifting up: `std::__push_heap` -/

namespace stl

variable {α : Type} [Inhabited α]

theorem push_heap_loop_zero (comp : α → α → Bool) (first : List α) (hole topIndex : Nat)
    (value : α) :
    push_heap_loop comp 0 first hole topIndex value = first.set hole value := rfl

theorem push_heap_loop_succ (comp : α → α → Bool) (fuel : Nat) (first : List α)
    (hole topIndex : Nat) (value : α) :
    push_heap_loop comp (fuel + 1) first hole topIndex value =
      if hole > topIndex && comp (first.getD ((hole - 1) / 2) default) value then
        push_heap_loop comp fuel (first.set hole (first.getD ((hole - 1) / 2) default))
          ((hole - 1) / 2) topIndex value
      else first.set hole value := rfl

theorem push_heap_loop_length (comp : α → α → Bool) (value : α) (topIndex : Nat) :
    ∀ (fuel : Nat) (first : List α) (hole : Nat),
      (push_heap_loop comp fuel first hole topIndex value).length = first.length
  | 0, first, hole => by simp [push_heap_loop]
  | fuel + 1, first, hole => by
    rw [push_heap_loop_succ]
    split
    · rw [push_heap_loop_length comp value topIndex fuel]; simp
    · simp

/-- The loop of `__push_heap` never stores above the hole it starts from. -/
theorem push_heap_loop_above (comp : α → α → Bool) (value : α) (topIndex : Nat) :
    ∀ (fuel : Nat) (first : List α) (hole j : Nat), hole < j →
      (push_heap_loop comp fuel first hole topIndex value).getD j default
        = first.getD j default
  | 0, first, hole, j, h => by
    rw [push_heap_loop_zero]
    exact getD_set_other _ _ _ _ _ (by omega)
  | fuel + 1, first, hole, j, h => by
    rw [push_heap_loop_succ]
    split
    · rw [push_heap_loop_above comp value topIndex fuel _ _ j (by omega)]
      exact getD_set_other _ _ _ _ _ (by omega)
    · exact getD_set_other _ _ _ _ _ (by omega)

/-- With at least `hole` units of fuel the recursion is the `while` loop of
`__push_heap`: the fuel never runs out before the loop condition fails. -/
theorem push_heap_loop_fuel (comp : α → α → Bool) (value : α) (topIndex : Nat) :
    ∀ (fuel : Nat) (first : List α) (hole : Nat), hole ≤ fuel →
      push_heap_loop comp fuel first hole topIndex value
        = push_heap_loop comp hole first hole topIndex value
  | 0, first, hole, h => by
    have : hole = 0 := by omega
    subst this; rfl
  | fuel + 1, first, hole, h => by
    cases hole with
    | zero => simp [push_heap_loop]
    | succ k =>
      have hk : (k + 1 - 1) / 2 ≤ k := by omega
      rw [push_heap_loop_succ, push_heap_loop_succ]
      split
      · rw [push_heap_loop_fuel comp value topIndex fuel _ _ (by omega),
          push_heap_loop_fuel comp value topIndex k _ _ hk]
      · rfl

/-- The unfolding equation of `__push_heap`: one test of the `while` condition,
then either one iteration and the rest of the loop, or the final store. -/
theorem push_heap_aux_eq (comp : α → α → Bool) (first : List α) (hole topIndex : Nat)
    (value : α) :
    push_heap_aux comp first hole topIndex value =
      if hole > topIndex && comp (first.getD ((hole - 1) / 2) default) value then
        push_heap_aux comp (first.set hole (first.getD ((hole - 1) / 2) default))
          ((hole - 1) / 2) topIndex value
      else first.set hole value := by
  unfold push_heap_aux
  cases hole with
  | zero => simp [push_heap_loop]
  | succ k =>
    rw [push_heap_loop_succ]
    split
    · rw [push_heap_loop_fuel comp value topIndex k _ _ (by omega)]
    · rfl

/-- The elements after `__push_heap` are those of the vector with `value`
stored in the hole. -/
theorem push_heap_loop_perm (comp : α → α → Bool) (value : α) (topIndex : Nat) :
    ∀ (fuel : Nat) (first : List α) (hole : Nat), hole < first.length →
      List.Perm (push_heap_loop comp fuel first hole topIndex value) (first.set hole value)
  | 0, first, hole, _ => by simp [push_heap_loop]
  | fuel + 1, first, hole, h => by
    rw [push_heap_loop_succ]
    split
    · rename_i hc
      have hpos : topIndex < hole := by
        simp only [Bool.and_eq_true, decide_eq_true_eq] at hc
        exact hc.1
      have hp : (hole - 1) / 2 < hole := by omega
      refine (push_heap_loop_perm comp value topIndex fuel _ _ (by simp; omega)).trans ?_
      exact set_move_perm default first hole _ value h (by omega) (by omega)
    · exact List.Perm.refl _

/-- The final store of `__push_heap` completes a heap: if the edges away from
the hole are in order, `value` is not below the children of the hole, and the
parent of the hole is not below `value`, then storing `value` gives a heap. -/
theorem store_isHeap (comp : α → α → Bool) (n : Nat) (value : α) (first : List α) (hole : Nat)
    (hn : n ≤ first.length)
    (hrest : ∀ i, 0 < i → i < n → i ≠ hole → (i - 1) / 2 ≠ hole →
      comp (first.getD ((i - 1) / 2) default) (first.getD i default) = false)
    (hchild : ∀ i, 0 < i → i < n → (i - 1) / 2 = hole →
      comp value (first.getD i default) = false)
    (hpar : 0 < hole → comp (first.getD ((hole - 1) / 2) default) value = false) :
    IsHeap comp (first.set hole value) n := by
  intro i hi hin
  by_cases h1 : i = hole
  · subst h1
    rw [getD_set_self _ _ _ _ (by omega), getD_set_other _ _ _ _ _ (by omega)]
    exact hpar hi
  · by_cases h2 : (i - 1) / 2 = hole
    · rw [← h2, getD_set_self _ _ _ _ (by omega), getD_set_other _ _ _ _ _ (by omega)]
      exact hchild i hi hin h2
    · rw [getD_set_other _ _ _ _ _ (Ne.symm h2), getD_set_other _ _ _ _ _ (Ne.symm h1)]
      exact hrest i hi hin h1 h2

/-- Sifting up restores the heap: the invariant of the `__push_heap` loop (all
edges away from the hole in order, `value` not below the children of the hole,
the parent of the hole not below those children) yields a heap at exit. -/
theorem push_heap_loop_isHeap (comp : α → α → Bool) (sw : StrictWeak comp) (n : Nat)
    (value : α) :
    ∀ (fuel : Nat) (first : List α) (hole : Nat), n ≤ first.length → hole < n →
      (∀ i, 0 < i → i < n → i ≠ hole → (i - 1) / 2 ≠ hole →
        comp (first.getD ((i - 1) / 2) default) (first.getD i default) = false) →
      (∀ i, 0 < i → i < n → (i - 1) / 2 = hole →
        comp value (first.getD i default) = false) →
      (0 < hole → ∀ i, 0 < i → i < n → (i - 1) / 2 = hole →
        comp (first.getD ((hole - 1) / 2) default) (first.getD i default) = false) →
      hole ≤ fuel →
      IsHeap comp (push_heap_loop comp fuel first hole 0 value) n
  | 0, first, hole, hn, _, hrest, hchild, _, hf => by
    rw [push_heap_loop_zero]
    exact store_isHeap comp n value first hole hn hrest hchild (by omega)
  | fuel + 1, first, hole, hn, hh, hrest, hchild, hgrand, hf => by
    rw [push_heap_loop_succ]
    split
    · rename_i hc
      simp only [Bool.and_eq_true, decide_eq_true_eq] at hc
      obtain ⟨hpos, hcmp⟩ := hc
      have hp : (hole - 1) / 2 < hole := by omega
      refine push_heap_loop_isHeap comp sw n value fuel _ _ (by simpa using hn) (by omega)
        ?_ ?_ ?_ (by omega)
      · intro i hi hin h1 h2
        by_cases h3 : i = hole
        · exact absurd (by rw [h3]) h2
        · rw [getD_set_other _ _ _ _ _ (Ne.symm h3)]
          by_cases h4 : (i - 1) / 2 = hole
          · rw [h4, getD_set_self _ _ _ _ (by omega)]
            exact hgrand hpos i hi hin h4
          · rw [getD_set_other _ _ _ _ _ (Ne.symm h4)]
            exact hrest i hi hin h3 h4
      · intro i hi hin h1
        have hnot : comp value (first.getD ((hole - 1) / 2) default) = false := by
          cases hv : comp value (first.getD ((hole - 1) / 2) default) with
          | false => rfl
          | true =>
            have := sw.trans _ _ _ hv hcmp
            rw [sw.irrefl] at this
            exact absurd this (by simp)
        by_cases h3 : i = hole
        · subst h3
          rw [getD_set_self _ _ _ _ (by omega)]
          exact hnot
        · rw [getD_set_other _ _ _ _ _ (Ne.symm h3)]
          have hpi : comp (first.getD ((i - 1) / 2) default) (first.getD i default) = false :=
            hrest i hi hin h3 (by omega)
          rw [h1] at hpi
          cases hv : comp value (first.getD i default) with
          | false => rfl
          | true =>
            have := sw.trans _ _ _ hcmp hv
            rw [hpi] at this
            exact absurd this (by simp)
      · intro hpp i hi hin h1
        have hgp : comp (first.getD (((hole - 1) / 2 - 1) / 2) default)
            (first.getD ((hole - 1) / 2) default) = false :=
          hrest ((hole - 1) / 2) hpp (by omega) (by omega) (by omega)
        rw [getD_set_other _ _ _ _ _ (by omega)]
        by_cases h3 : i = hole
        · subst h3
          rw [getD_set_self _ _ _ _ (by omega)]
          exact hgp
        · rw [getD_set_other _ _ _ _ _ (Ne.symm h3)]
          have hpi : comp (first.getD ((i - 1) / 2) default) (first.getD i default) = false :=
            hrest i hi hin h3 (by omega)
          rw [h1] at hpi
          exact sw.negTrans _ _ _ hgp hpi
    · rename_i hc
      refine store_isHeap comp n value first hole (by omega) hrest hchild ?_
      intro hpos
      simp only [Bool.and_eq_true, decide_eq_true_eq, not_and, Bool.not_eq_true] at hc
      exact hc hpos

end stl

/-! ## Sifting down: `std::__adjust_heap` -/

namespace stl

variable {α : Type} [Inhabited α]

theorem adjust_heap_loop_zero (comp : α → α → Bool) (first : List α)
    (hole secondChild len : Nat) :
    adjust_heap_loop comp 0 first hole secondChild len = (first, hole, secondChild) := rfl

theorem adjust_heap_loop_succ (comp : α → α → Bool) (fuel : Nat) (first : List α)
    (hole secondChild len : Nat) :
    adjust_heap_loop comp (fuel + 1) first hole secondChild len =
      if secondChild < (len - 1) / 2 then
        adjust_heap_loop comp fuel
          (first.set hole (first.getD
            (if comp (first.getD (2 * (secondChild + 1)) default)
                (first.getD (2 * (secondChild + 1) - 1) default)
              then 2 * (secondChild + 1) - 1 else 2 * (secondChild + 1)) default))
          (if comp (first.getD (2 * (secondChild + 1)) default)
              (first.getD (2 * (secondChild + 1) - 1) default)
            then 2 * (secondChild + 1) - 1 else 2 * (secondChild + 1))
          (if comp (first.getD (2 * (secondChild + 1)) default)
              (first.getD (2 * (secondChild + 1) - 1) default)
            then 2 * (secondChild + 1) - 1 else 2 * (secondChild + 1))
          len
      else (first, hole, secondChild) := rfl

/-- The child the loop of `__adjust_heap` moves up: the left one when the right
one compares below it, else the right one. -/
theorem second_child_cases (comp : α → α → Bool) (first : List α) (h : Nat) :
    ((if comp (first.getD (2 * (h + 1)) default) (first.getD (2 * (h + 1) - 1) default)
        then 2 * (h + 1) - 1 else 2 * (h + 1)) = 2 * h + 1 ∧
      comp (first.getD (2 * h + 2) default) (first.getD (2 * h + 1) default) = true) ∨
    ((if comp (first.getD (2 * (h + 1)) default) (first.getD (2 * (h + 1) - 1) default)
        then 2 * (h + 1) - 1 else 2 * (h + 1)) = 2 * h + 2 ∧
      comp (first.getD (2 * h + 2) default) (first.getD (2 * h + 1) default) = false) := by
  have e1 : 2 * (h + 1) = 2 * h + 2 := by omega
  have e2 : 2 * (h + 1) - 1 = 2 * h + 1 := by omega
  rw [e2, e1]
  cases hc : comp (first.getD (2 * h + 2) default) (first.getD (2 * h + 1) default) with
  | true => left; simp
  | false => right; simp

theorem adjust_heap_loop_length (comp : α → α → Bool) (len : Nat) :
    ∀ (fuel : Nat) (first : List α) (hole sc : Nat),
      (adjust_heap_loop comp fuel first hole sc len).1.length = first.length
  | 0, first, hole, sc => rfl
  | fuel + 1, first, hole, sc => by
    rw [adjust_heap_loop_succ]
    split
    · rw [adjust_heap_loop_length comp len fuel]; simp
    · rfl

/-- Where the loop of `__adjust_heap` stops: at an index `h` of the heap, not
above the start, with `secondChild = holeIndex`, and with the loop condition
`secondChild < (len - 1) / 2` false (the fuel `len - hole` is enough). -/
theorem adjust_heap_loop_exit (comp : α → α → Bool) (len : Nat) :
    ∀ (fuel : Nat) (first : List α) (hole : Nat), hole < len → len ≤ fuel + hole →
      (adjust_heap_loop comp fuel first hole hole len).2.2
          = (adjust_heap_loop comp fuel first hole hole len).2.1 ∧
        hole ≤ (adjust_heap_loop comp fuel first hole hole len).2.1 ∧
        (adjust_heap_loop comp fuel first hole hole len).2.1 < len ∧
        ¬ (adjust_heap_loop comp fuel first hole hole len).2.1 < (len - 1) / 2
  | 0, first, hole, h, hf => by
    rw [adjust_heap_loop_zero]
    exact ⟨rfl, Nat.le_refl _, h, by omega⟩
  | fuel + 1, first, hole, h, hf => by
    rw [adjust_heap_loop_succ]
    split
    · rename_i hlt
      rcases second_child_cases comp first hole with ⟨hs, _⟩ | ⟨hs, _⟩
      · rw [hs]
        have ih := adjust_heap_loop_exit comp len fuel
          (first.set hole (first.getD (2 * hole + 1) default)) (2 * hole + 1)
          (by omega) (by omega)
        exact ⟨ih.1, by omega, ih.2.2.1, ih.2.2.2⟩
      · rw [hs]
        have ih := adjust_heap_loop_exit comp len fuel
          (first.set hole (first.getD (2 * hole + 2) default)) (2 * hole + 2)
          (by omega) (by omega)
        exact ⟨ih.1, by omega, ih.2.2.1, ih.2.2.2⟩
    · rename_i hge
      exact ⟨rfl, Nat.le_refl _, h, hge⟩

/-- The unfolding equation of the loop of `__adjust_heap` at the fuel
`adjust_heap` gives it: with `len` units of fuel the result is that of the
`while` statement, whatever larger fuel is supplied. -/
theorem adjust_heap_loop_fuel (comp : α → α → Bool) (len : Nat) :
    ∀ (fuel : Nat) (first : List α) (hole : Nat), len ≤ fuel + hole →
      adjust_heap_loop comp (fuel + 1) first hole hole len
        = adjust_heap_loop comp fuel first hole hole len
  | 0, first, hole, hf => by
    rw [adjust_heap_loop_succ, if_neg (by omega)]
    rfl
  | fuel + 1, first, hole, hf => by
    rw [adjust_heap_loop_succ comp (fuel + 1) first hole hole len,
      adjust_heap_loop_succ comp fuel first hole hole len]
    by_cases hlt : hole < (len - 1) / 2
    · rw [if_pos hlt, if_pos hlt]
      rcases second_child_cases comp first hole with ⟨hs, _⟩ | ⟨hs, _⟩
      · rw [hs]
        exact adjust_heap_loop_fuel comp len fuel _ _ (by omega)
      · rw [hs]
        exact adjust_heap_loop_fuel comp len fuel _ _ (by omega)
    · rw [if_neg hlt, if_neg hlt]

/-- The loop of `__adjust_heap` stores only inside `[0, len)`. -/
theorem adjust_heap_loop_above (comp : α → α → Bool) (len : Nat) :
    ∀ (fuel : Nat) (first : List α) (hole j : Nat), hole < len → len ≤ j →
      (adjust_heap_loop comp fuel first hole hole len).1.getD j default
        = first.getD j default
  | 0, first, hole, j, _, _ => rfl
  | fuel + 1, first, hole, j, h, hj => by
    rw [adjust_heap_loop_succ]
    split
    · rcases second_child_cases comp first hole with ⟨hs, _⟩ | ⟨hs, _⟩
      · rw [hs, adjust_heap_loop_above comp len fuel _ _ j (by omega) hj]
        exact getD_set_other _ _ _ _ _ (by omega)
      · rw [hs, adjust_heap_loop_above comp len fuel _ _ j (by omega) hj]
        exact getD_set_other _ _ _ _ _ (by omega)
    · rfl

/-- The loop of `__adjust_heap` moves the hole: filling the final hole gives
the elements of the vector with the starting hole filled. -/
theorem adjust_heap_loop_perm (comp : α → α → Bool) (len : Nat) (value : α) :
    ∀ (fuel : Nat) (first : List α) (hole : Nat), hole < len → len ≤ first.length →
      List.Perm
        ((adjust_heap_loop comp fuel first hole hole len).1.set
          (adjust_heap_loop comp fuel first hole hole len).2.1 value)
        (first.set hole value)
  | 0, first, hole, _, _ => List.Perm.refl _
  | fuel + 1, first, hole, h, hl => by
    rw [adjust_heap_loop_succ]
    split
    · rcases second_child_cases comp first hole with ⟨hs, _⟩ | ⟨hs, _⟩
      · rw [hs]
        refine (adjust_heap_loop_perm comp len value fuel _ _ (by omega)
          (by simpa using hl)).trans ?_
        exact set_move_perm default first hole _ value (by omega) (by omega) (by omega)
      · rw [hs]
        refine (adjust_heap_loop_perm comp len value fuel _ _ (by omega)
          (by simpa using hl)).trans ?_
        exact set_move_perm default first hole _ value (by omega) (by omega) (by omega)
    · exact List.Perm.refl _

end stl

/-! ## The heap property through `__adjust_heap`, `pop_heap` and `push_heap` -/

namespace stl

variable {α : Type} [Inhabited α]

omit [Inhabited α] in
theorem StrictWeak.asymm {comp : α → α → Bool} (sw : StrictWeak comp) (a b : α)
    (h : comp a b = true) : comp b a = false := by
  cases hv : comp b a with
  | false => rfl
  | true =>
    have := sw.trans _ _ _ h hv
    rw [sw.irrefl] at this
    exact absurd this (by simp)

/-- The invariant of the loop of `__adjust_heap`: the edges away from the hole
stay in order, and the parent of the hole is not below the children of the
hole. -/
theorem adjust_heap_loop_inv (comp : α → α → Bool) (sw : StrictWeak comp) (len : Nat) :
    ∀ (fuel : Nat) (first : List α) (hole : Nat), hole < len → len ≤ first.length →
      (∀ i, 0 < i → i < len → i ≠ hole → (i - 1) / 2 ≠ hole →
        comp (first.getD ((i - 1) / 2) default) (first.getD i default) = false) →
      (0 < hole → ∀ i, 0 < i → i < len → (i - 1) / 2 = hole →
        comp (first.getD ((hole - 1) / 2) default) (first.getD i default) = false) →
      (∀ i, 0 < i → i < len → i ≠ (adjust_heap_loop comp fuel first hole hole len).2.1 →
        (i - 1) / 2 ≠ (adjust_heap_loop comp fuel first hole hole len).2.1 →
        comp ((adjust_heap_loop comp fuel first hole hole len).1.getD ((i - 1) / 2) default)
          ((adjust_heap_loop comp fuel first hole hole len).1.getD i default) = false) ∧
      (0 < (adjust_heap_loop comp fuel first hole hole len).2.1 → ∀ i, 0 < i → i < len →
        (i - 1) / 2 = (adjust_heap_loop comp fuel first hole hole len).2.1 →
        comp ((adjust_heap_loop comp fuel first hole hole len).1.getD
            (((adjust_heap_loop comp fuel first hole hole len).2.1 - 1) / 2) default)
          ((adjust_heap_loop comp fuel first hole hole len).1.getD i default) = false)
  | 0, first, hole, _, _, hrest, hgrand => ⟨hrest, hgrand⟩
  | fuel + 1, first, hole, h, hl, hrest, hgrand => by
    rw [adjust_heap_loop_succ]
    split
    · rename_i hlt
      -- the step: the chosen child `s` of `hole` moves up and becomes the hole
      have key : ∀ s, (s = 2 * hole + 1 ∨ s = 2 * hole + 2) →
          (∀ i, 0 < i → i < len → (i - 1) / 2 = hole → i ≠ s →
            comp (first.getD s default) (first.getD i default) = false) →
          (∀ i, 0 < i → i < len → i ≠ s → (i - 1) / 2 ≠ s →
            comp ((first.set hole (first.getD s default)).getD ((i - 1) / 2) default)
              ((first.set hole (first.getD s default)).getD i default) = false) ∧
          (0 < s → ∀ i, 0 < i → i < len → (i - 1) / 2 = s →
            comp ((first.set hole (first.getD s default)).getD ((s - 1) / 2) default)
              ((first.set hole (first.getD s default)).getD i default) = false) := by
        intro s hs hsib
        have hsp : (s - 1) / 2 = hole := by omega
        have hslen : s < len := by omega
        constructor
        · intro i hi hin h1 h2
          by_cases h3 : i = hole
          · subst h3
            rw [getD_set_self _ _ _ _ (by omega), getD_set_other _ _ _ _ _ (by omega)]
            exact hgrand hi s (by omega) hslen hsp
          · rw [getD_set_other _ _ _ _ _ (Ne.symm h3)]
            by_cases h4 : (i - 1) / 2 = hole
            · rw [h4, getD_set_self _ _ _ _ (by omega)]
              exact hsib i hi hin h4 h1
            · rw [getD_set_other _ _ _ _ _ (Ne.symm h4)]
              exact hrest i hi hin h3 h4
        · intro _ i hi hin h1
          rw [hsp, getD_set_self _ _ _ _ (by omega), getD_set_other _ _ _ _ _ (by omega)]
          have := hrest i hi hin (by omega) (by omega)
          rw [h1] at this
          exact this
      rcases second_child_cases comp first hole with ⟨hs, hc⟩ | ⟨hs, hc⟩
      · rw [hs]
        have hk := key (2 * hole + 1) (Or.inl rfl) (by
          intro i hi hin h1 h2
          have : i = 2 * hole + 2 := by omega
          subst this
          exact sw.asymm _ _ hc)
        exact adjust_heap_loop_inv comp sw len fuel _ _ (by omega) (by simpa using hl)
          hk.1 hk.2
      · rw [hs]
        have hk := key (2 * hole + 2) (Or.inr rfl) (by
          intro i hi hin h1 h2
          have : i = 2 * hole + 1 := by omega
          subst this
          exact hc)
        exact adjust_heap_loop_inv comp sw len fuel _ _ (by omega) (by simpa using hl)
          hk.1 hk.2
    · exact ⟨hrest, hgrand⟩

theorem push_heap_aux_length (comp : α → α → Bool) (first : List α) (hole topIndex : Nat)
    (value : α) : (push_heap_aux comp first hole topIndex value).length = first.length :=
  push_heap_loop_length comp value topIndex hole first hole

theorem adjust_heap_length (comp : α → α → Bool) (first : List α) (len : Nat) (value : α) :
    (adjust_heap comp first 0 len value).length = first.length := by
  unfold adjust_heap
  simp only []
  split
  · rw [push_heap_aux_length, List.length_set, adjust_heap_loop_length]
  · rw [push_heap_aux_length, adjust_heap_loop_length]

/-- The function `__adjust_heap` stores only inside `[0, len)`. -/
theorem adjust_heap_above (comp : α → α → Bool) (first : List α) (len : Nat) (value : α)
    (hlen : 0 < len) (j : Nat) (hj : len ≤ j) :
    (adjust_heap comp first 0 len value).getD j default = first.getD j default := by
  have hex := adjust_heap_loop_exit comp len len first 0 hlen (by omega)
  unfold adjust_heap
  simp only []
  split
  · rename_i hc
    simp only [Bool.and_eq_true, beq_iff_eq] at hc
    unfold push_heap_aux
    rw [push_heap_loop_above comp value 0 _ _ _ j (by omega),
      getD_set_other _ _ _ _ _ (by omega), adjust_heap_loop_above comp len len first 0 j hlen hj]
  · unfold push_heap_aux
    rw [push_heap_loop_above comp value 0 _ _ _ j (by omega),
      adjust_heap_loop_above comp len len first 0 j hlen hj]

/-- The function `__adjust_heap` from the root holds the elements of the vector
with `value` stored at the root. -/
theorem adjust_heap_perm (comp : α → α → Bool) (first : List α) (len : Nat) (value : α)
    (hlen : 0 < len) (hl : len ≤ first.length) :
    List.Perm (adjust_heap comp first 0 len value) (first.set 0 value) := by
  have hex := adjust_heap_loop_exit comp len len first 0 hlen (by omega)
  have hlo := adjust_heap_loop_length comp len len first 0 0
  unfold adjust_heap
  simp only []
  split
  · rename_i hc
    simp only [Bool.and_eq_true, beq_iff_eq] at hc
    unfold push_heap_aux
    refine (push_heap_loop_perm comp value 0 _ _ _ (by simp; omega)).trans ?_
    refine (set_move_perm default _ _ _ value (by omega) (by omega) (by omega)).trans ?_
    exact adjust_heap_loop_perm comp len value len first 0 hlen hl
  · unfold push_heap_aux
    refine (push_heap_loop_perm comp value 0 _ _ _ (by omega)).trans ?_
    exact adjust_heap_loop_perm comp len value len first 0 hlen hl

end stl

namespace stl

variable {α : Type} [Inhabited α]

/-- The function `__adjust_heap` from the root restores the heap on `[0, len)`
when every edge that does not start at the root is in order. -/
theorem adjust_heap_isHeap (comp : α → α → Bool) (sw : StrictWeak comp) (first : List α)
    (len : Nat) (value : α) (hlen : 0 < len) (hl : len ≤ first.length)
    (hrest : ∀ i, 0 < i → i < len → (i - 1) / 2 ≠ 0 →
      comp (first.getD ((i - 1) / 2) default) (first.getD i default) = false) :
    IsHeap comp (adjust_heap comp first 0 len value) len := by
  have hex := adjust_heap_loop_exit comp len len first 0 hlen (by omega)
  have hlo := adjust_heap_loop_length comp len len first 0 0
  have hinv := adjust_heap_loop_inv comp sw len len first 0 hlen hl
    (fun i hi hin _ h2 => hrest i hi hin h2) (fun h => absurd h (by omega))
  obtain ⟨hr, hg⟩ := hinv
  unfold adjust_heap
  simp only []
  split
  · rename_i hc
    simp only [Bool.and_eq_true, beq_iff_eq] at hc
    unfold push_heap_aux
    refine push_heap_loop_isHeap comp sw len value _ _ _ (by simp; omega) (by omega)
      ?_ ?_ ?_ (Nat.le_refl _)
    · intro i hi hin h1 h2
      by_cases h3 : i = (adjust_heap_loop comp len first 0 0 len).2.1
      · subst h3
        rw [getD_set_self _ _ _ _ (by omega), getD_set_other _ _ _ _ _ (by omega)]
        exact hg (by omega) _ (by omega) (by omega) (by omega)
      · rw [getD_set_other _ _ _ _ _ (Ne.symm h3)]
        have h4 : (i - 1) / 2 ≠ (adjust_heap_loop comp len first 0 0 len).2.1 := by omega
        rw [getD_set_other _ _ _ _ _ (Ne.symm h4)]
        exact hr i hi hin h3 h4
    · intro i hi hin h1
      omega
    · intro _ i hi hin h1
      omega
  · rename_i hc
    simp only [Bool.and_eq_true, beq_iff_eq, not_and] at hc
    have hleaf : len ≤ 2 * (adjust_heap_loop comp len first 0 0 len).2.1 + 1 := by
      by_cases hp : len % 2 = 0
      · have := hc hp
        omega
      · omega
    unfold push_heap_aux
    refine push_heap_loop_isHeap comp sw len value _ _ _ (by omega) (by omega)
      hr ?_ ?_ (Nat.le_refl _)
    · intro i hi hin h1
      omega
    · intro _ i hi hin h1
      omega

theorem pop_heap_length (comp : α → α → Bool) (c : List α) :
    (pop_heap comp c).length = c.length := by
  unfold pop_heap
  split
  · simp only []
    rw [adjust_heap_length, List.length_set]
  · rfl

/-- The function `pop_heap` rearranges the vector. -/
theorem pop_heap_perm (comp : α → α → Bool) (c : List α) :
    List.Perm (pop_heap comp c) c := by
  unfold pop_heap
  split
  · rename_i h
    simp only []
    refine (adjust_heap_perm comp _ _ _ (by omega) (by simp)).trans ?_
    have := swap_perm default c (c.length - 1) 0 (by omega) (by omega)
    exact this
  · exact List.Perm.refl _

/-- The function `pop_heap` leaves the old first element in the last place. -/
theorem pop_heap_last (comp : α → α → Bool) (c : List α) :
    (pop_heap comp c).getD (c.length - 1) default = c.getD 0 default := by
  unfold pop_heap
  split
  · rename_i h
    simp only []
    rw [adjust_heap_above comp _ _ _ (by omega) _ (Nat.le_refl _),
      getD_set_self _ _ _ _ (by omega)]
  · rename_i h
    have : c.length - 1 = 0 := by omega
    rw [this]

/-- The function `pop_heap` leaves a heap on all but the last place. -/
theorem pop_heap_isHeap (comp : α → α → Bool) (sw : StrictWeak comp) (c : List α)
    (hc : IsHeap comp c c.length) :
    IsHeap comp (pop_heap comp c) (c.length - 1) := by
  unfold pop_heap
  split
  · rename_i h
    simp only []
    refine adjust_heap_isHeap comp sw _ _ _ (by omega) (by simp) ?_
    intro i hi hin h1
    rw [getD_set_other _ _ _ _ _ (by omega), getD_set_other _ _ _ _ _ (by omega)]
    exact hc i hi (by omega)
  · intro i hi hin
    omega

/-- The function `push_heap` rearranges the vector. -/
theorem push_heap_perm (comp : α → α → Bool) (c : List α) (hc : c ≠ []) :
    List.Perm (push_heap comp c) c := by
  have hpos : 0 < c.length := List.length_pos.mpr hc
  unfold push_heap push_heap_aux
  simp only []
  refine (push_heap_loop_perm comp _ 0 _ _ _ (by omega)).trans ?_
  have : c.set (c.length - 1) (c.getD (c.length - 1) default) = c := by
    apply List.ext_getElem?
    intro n
    rw [List.getElem?_set]
    split
    · rename_i h
      subst h
      rw [if_pos (by omega), List.getD_eq_getElem?_getD]
      rw [List.getElem?_eq_getElem (by omega)]
      rfl
    · rfl
  rw [this]

theorem push_heap_length (comp : α → α → Bool) (c : List α) :
    (push_heap comp c).length = c.length := by
  unfold push_heap
  exact push_heap_aux_length comp _ _ _ _

/-- The function `push_heap` makes a heap of a heap followed by one new
element. -/
theorem push_heap_isHeap (comp : α → α → Bool) (sw : StrictWeak comp) (c : List α) (x : α)
    (hc : IsHeap comp c c.length) :
    IsHeap comp (push_heap comp (c ++ [x])) (c.length + 1) := by
  have hget : ∀ i, i < c.length → (c ++ [x]).getD i default = c.getD i default := by
    intro i hi
    simp [List.getD_eq_getElem?_getD, List.getElem?_append_left hi]
  unfold push_heap push_heap_aux
  simp only [List.length_append, List.length_singleton, Nat.add_sub_cancel]
  refine push_heap_loop_isHeap comp sw (c.length + 1) _ _ _ _ (by simp) (by omega)
    ?_ ?_ ?_ (Nat.le_refl _)
  · intro i hi hin h1 h2
    rw [hget i (by omega), hget _ (by omega)]
    exact hc i hi (by omega)
  · intro i hi hin h1
    omega
  · intro _ i hi hin h1
    omega

/-- In a heap the first element is never below another element. -/
theorem isHeap_front_max (comp : α → α → Bool) (sw : StrictWeak comp) (c : List α) (n : Nat)
    (hc : IsHeap comp c n) :
    ∀ i, i < n → comp (c.getD 0 default) (c.getD i default) = false := by
  intro i
  induction i using Nat.strong_induction_on with
  | _ i ih =>
    intro hin
    by_cases hi : i = 0
    · subst hi
      exact sw.irrefl _
    · have hp := ih ((i - 1) / 2) (by omega) (by omega)
      exact sw.negTrans _ _ _ hp (hc i (by omega) hin)

end stl

/-! ## The priority queue -/

namespace stl

variable {α : Type} [Inhabited α]

omit [Inhabited α] in
theorem getD_dropLast (r : List α) (i : Nat) (d : α) (h : i < r.length - 1) :
    r.dropLast.getD i d = r.getD i d := by
  rw [List.dropLast_eq_take, List.getD_eq_getElem?_getD, List.getD_eq_getElem?_getD,
    List.getElem?_take_of_lt h]

omit [Inhabited α] in
theorem dropLast_append_last (r : List α) (d : α) (h : r ≠ []) :
    r.dropLast ++ [r.getD (r.length - 1) d] = r := by
  have hpos : 0 < r.length := List.length_pos.mpr h
  have hl : r.getLast h = r.getD (r.length - 1) d := by
    rw [List.getLast_eq_getElem, List.getD_eq_getElem?_getD,
      List.getElem?_eq_getElem (by omega)]
    rfl
  rw [← hl]
  exact List.dropLast_append_getLast h

theorem priority_queue.push_size (comp : α → α → Bool) (q : priority_queue α) (x : α) :
    (q.push comp x).size = q.size + 1 := by
  simp [priority_queue.push, priority_queue.size, push_heap_length]

/-- After `push(x)` the queue holds its old elements and `x`. -/
theorem priority_queue.push_perm (comp : α → α → Bool) (q : priority_queue α) (x : α) :
    List.Perm (q.push comp x).c (x :: q.c) := by
  unfold priority_queue.push
  refine (push_heap_perm comp (q.c ++ [x]) (by simp)).trans ?_
  exact List.perm_append_comm

theorem priority_queue.push_isHeap (comp : α → α → Bool) (sw : StrictWeak comp)
    (q : priority_queue α) (x : α) (h : IsHeap comp q.c q.c.length) :
    IsHeap comp (q.push comp x).c (q.push comp x).c.length := by
  have := push_heap_isHeap comp sw q.c x h
  unfold priority_queue.push
  simp only [push_heap_length, List.length_append, List.length_singleton]
  exact this

theorem priority_queue.pop_size (comp : α → α → Bool) (q : priority_queue α) :
    (q.pop comp).size = q.size - 1 := by
  simp [priority_queue.pop, priority_queue.size, pop_heap_length]

/-- Before `pop()` the queue holds `top()` and what it holds afterwards. -/
theorem priority_queue.pop_perm (comp : α → α → Bool) (q : priority_queue α)
    (h : q.empty = false) : List.Perm q.c (q.top :: (q.pop comp).c) := by
  have hne : q.c ≠ [] := by
    intro h0
    simp [priority_queue.empty, h0] at h
  have hne2 : pop_heap comp q.c ≠ [] := by
    intro h0
    have := pop_heap_length comp q.c
    rw [h0] at this
    exact hne (List.length_eq_zero.mp this.symm)
  have h1 := dropLast_append_last (pop_heap comp q.c) default hne2
  rw [pop_heap_length, pop_heap_last] at h1
  unfold priority_queue.top priority_queue.pop
  refine (pop_heap_perm comp q.c).symm.trans ?_
  rw [← h1]
  simp only [List.dropLast_concat]
  exact List.perm_append_comm

theorem priority_queue.pop_isHeap (comp : α → α → Bool) (sw : StrictWeak comp)
    (q : priority_queue α) (h : IsHeap comp q.c q.c.length) :
    IsHeap comp (q.pop comp).c (q.pop comp).c.length := by
  have h1 := pop_heap_isHeap comp sw q.c h
  unfold priority_queue.pop
  simp only [List.length_dropLast, pop_heap_length]
  intro i hi hin
  rw [getD_dropLast _ _ _ (by rw [pop_heap_length]; omega),
    getD_dropLast _ _ _ (by rw [pop_heap_length]; omega)]
  exact h1 i hi hin

/-- In a queue that satisfies the heap invariant, `top()` is never below an
element of the queue. -/
theorem priority_queue.top_max (comp : α → α → Bool) (sw : StrictWeak comp)
    (q : priority_queue α) (h : IsHeap comp q.c q.c.length) :
    ∀ p ∈ q.c, comp q.top p = false := by
  intro p hp
  obtain ⟨i, hi, rfl⟩ := List.mem_iff_getElem.mp hp
  have := isHeap_front_max comp sw q.c q.c.length h i hi
  rw [List.getD_eq_getElem?_getD q.c i, List.getElem?_eq_getElem hi] at this
  exact this

end stl

/-! ## The comparator is a strict weak ordering -/

theorem comparePriority_eq_true (a b : Patient) :
    ComparePriority a b = true ↔
      a.severity < b.severity ∨ (a.severity = b.severity ∧ b.arrivalTime < a.arrivalTime) := by
  unfold ComparePriority
  by_cases h : a.severity = b.severity
  · simp [h]
  · simp [h]

theorem comparePriority_eq_false (a b : Patient) :
    ComparePriority a b = false ↔ ServedBefore a b := by
  unfold ServedBefore
  rw [← Bool.not_eq_true, comparePriority_eq_true]
  constructor
  · intro h
    constructor
    · omega
    · intro he; omega
  · intro h
    obtain ⟨h1, h2⟩ := h
    intro h3
    rcases h3 with h3 | ⟨h3, h4⟩
    · omega
    · have := h2 h3
      omega

theorem comparePriority_strictWeak : stl.StrictWeak ComparePriority where
  irrefl := by
    intro a
    rw [comparePriority_eq_false]
    exact ⟨le_refl _, fun _ => le_refl _⟩
  trans := by
    intro a b c
    rw [comparePriority_eq_true, comparePriority_eq_true, comparePriority_eq_true]
    intro h1 h2
    omega
  negTrans := by
    intro a b c
    rw [comparePriority_eq_false, comparePriority_eq_false, comparePriority_eq_false]
    unfold ServedBefore
    intro h1 h2
    constructor
    · omega
    · intro he
      have e1 : a.severity = b.severity := by omega
      have e2 : b.severity = c.severity := by omega
      have := h1.2 e1
      have := h2.2 e2
      omega

/-! ## One call of `addPatient` and `treatNextPatient` -/

theorem addPatient_invalid (er : ERManager) (name : String) (severity : Int)
    (condition : String) (now : Int) (h : severity < 1 ∨ 5 < severity) :
    er.addPatient name severity condition now = (er, AddOutcome.invalidSeverity) := by
  unfold ERManager.addPatient
  rw [if_pos]
  rcases h with h | h
  · simp [h]
  · simp [h]

theorem addPatient_valid (er : ERManager) (name : String) (severity : Int)
    (condition : String) (now : Int) (h : 1 ≤ severity ∧ severity ≤ 5) :
    er.addPatient name severity condition now =
      ({ waitingQueue := er.waitingQueue.push ComparePriority
            (Patient.create name severity condition er.nextPatientID now)
         treatedPatients := er.treatedPatients
         nextPatientID := er.nextPatientID + 1 },
       AddOutcome.patientAdded
         (Patient.create name severity condition er.nextPatientID now)) := by
  unfold ERManager.addPatient
  rw [if_neg]
  simp only [Bool.or_eq_true, decide_eq_true_eq, not_or, not_lt]
  omega

theorem treatNextPatient_empty (er : ERManager) (now : Int)
    (h : er.waitingQueue.empty = true) :
    er.treatNextPatient now = (er, TreatOutcome.noPatientsWaiting) := by
  unfold ERManager.treatNextPatient
  rw [if_pos h]

theorem treatNextPatient_nonempty (er : ERManager) (now : Int)
    (h : er.waitingQueue.empty = false) :
    er.treatNextPatient now =
      ({ waitingQueue := er.waitingQueue.pop ComparePriority
         treatedPatients := er.treatedPatients ++ [er.waitingQueue.top]
         nextPatientID := er.nextPatientID },
       TreatOutcome.nowTreating er.waitingQueue.top
         (now - er.waitingQueue.top.arrivalTime)) := by
  unfold ERManager.treatNextPatient
  rw [if_neg (by simp [h])]

theorem addPatient_heapInv (er : ERManager) (name : String) (severity : Int)
    (condition : String) (now : Int) (h : HeapInv er) :
    HeapInv (er.addPatient name severity condition now).1 := by
  by_cases hv : 1 ≤ severity ∧ severity ≤ 5
  · rw [addPatient_valid er name severity condition now hv]
    exact stl.priority_queue.push_isHeap ComparePriority comparePriority_strictWeak _ _ h
  · rw [addPatient_invalid er name severity condition now (by omega)]
    exact h

theorem treatNextPatient_heapInv (er : ERManager) (now : Int) (h : HeapInv er) :
    HeapInv (er.treatNextPatient now).1 := by
  cases he : er.waitingQueue.empty with
  | true =>
    rw [treatNextPatient_empty er now he]
    exact h
  | false =>
    rw [treatNextPatient_nonempty er now he]
    exact stl.priority_queue.pop_isHeap ComparePriority comparePriority_strictWeak _ h

theorem init_heapInv : HeapInv ERManager.init := by
  intro i hi hin
  simp [ERManager.init] at hin

theorem step_heapInv (er : ERManager) (op : Op) (h : HeapInv er) : HeapInv (step er op).1 := by
  cases op with
  | addPatient name severity condition now => exact addPatient_heapInv er _ _ _ _ h
  | treatNextPatient now => exact treatNextPatient_heapInv er now h
  | displayQueue =>
    simp only [step, ERManager.displayQueue]
    split <;> exact h
  | displayTreated =>
    simp only [step, ERManager.displayTreated]
    split <;> exact h
  | displayDashboard => exact h

/-- The heap invariant of the waiting queue holds throughout a session. -/
theorem run_heapInv : ∀ (ops : List Op) (er : ERManager), HeapInv er → HeapInv (run er ops).1
  | [], _, h => h
  | op :: ops, er, h => run_heapInv ops (step er op).1 (step_heapInv er op h)

theorem addAll_heapInv : ∀ (subs : List Submission) (er : ERManager),
    HeapInv er → HeapInv (addAll er subs)
  | [], _, h => h
  | _ :: ss, er, h => addAll_heapInv ss _ (addPatient_heapInv er _ _ _ _ h)

theorem empty_iff_size (q : stl.priority_queue Patient) : q.empty = true ↔ q.size = 0 := by
  unfold stl.priority_queue.empty stl.priority_queue.size
  rw [List.isEmpty_iff, List.length_eq_zero]

theorem empty_false_iff_size (q : stl.priority_queue Patient) :
    q.empty = false ↔ 0 < q.size := by
  rw [← Bool.not_eq_true, empty_iff_size]
  omega

/-! ## Treating until the queue is empty -/

theorem treatUntilEmpty_zero (clock : Nat → Int) (er : ERManager) :
    treatUntilEmpty clock 0 er = (er, []) := rfl

theorem treatUntilEmpty_succ (clock : Nat → Int) (fuel : Nat) (er : ERManager) :
    treatUntilEmpty clock (fuel + 1) er =
      if er.waitingQueue.empty then (er, [])
      else
        ((treatUntilEmpty clock fuel (er.treatNextPatient (clock fuel)).1).1,
         er.waitingQueue.top ::
           (treatUntilEmpty clock fuel (er.treatNextPatient (clock fuel)).1).2) := rfl

/-- Treating until empty, with at least `size()` calls allowed, ends with the
queue empty; the patients treated are exactly the waiting ones, they are
appended to the treated list, and `nextPatientID` is untouched. -/
theorem treatUntilEmpty_drain (clock : Nat → Int) :
    ∀ (fuel : Nat) (er : ERManager), er.waitingQueue.size ≤ fuel →
      (treatUntilEmpty clock fuel er).1.waitingQueue.empty = true ∧
      List.Perm (treatUntilEmpty clock fuel er).2 er.waitingQueue.c ∧
      (treatUntilEmpty clock fuel er).1.treatedPatients
        = er.treatedPatients ++ (treatUntilEmpty clock fuel er).2 ∧
      (treatUntilEmpty clock fuel er).1.nextPatientID = er.nextPatientID
  | 0, er, h => by
    rw [treatUntilEmpty_zero]
    have h0 : er.waitingQueue.size = 0 := by omega
    refine ⟨(empty_iff_size _).mpr h0, ?_, by simp, rfl⟩
    unfold stl.priority_queue.size at h0
    rw [List.length_eq_zero.mp h0]
  | fuel + 1, er, h => by
    rw [treatUntilEmpty_succ]
    rcases Bool.eq_false_or_eq_true er.waitingQueue.empty with he | he
    · have h0 : er.waitingQueue.size = 0 := (empty_iff_size _).mp he
      unfold stl.priority_queue.size at h0
      rw [if_pos he]
      refine ⟨he, ?_, by simp, rfl⟩
      rw [List.length_eq_zero.mp h0]
    · rw [if_neg (by simp [he])]
      rw [treatNextPatient_nonempty er (clock fuel) he]
      have ih := treatUntilEmpty_drain clock fuel
        { waitingQueue := er.waitingQueue.pop ComparePriority
          treatedPatients := er.treatedPatients ++ [er.waitingQueue.top]
          nextPatientID := er.nextPatientID }
        (by simp only [stl.priority_queue.pop_size]; omega)
      obtain ⟨i1, i2, i3, i4⟩ := ih
      refine ⟨i1, ?_, ?_, i4⟩
      · exact (List.Perm.cons _ i2).trans
          (stl.priority_queue.pop_perm ComparePriority er.waitingQueue he).symm
      · rw [i3]
        simp

/-- Treating until empty serves in the order of the comparator: no patient is
served before one it compares below. -/
theorem treatUntilEmpty_sorted (clock : Nat → Int) :
    ∀ (fuel : Nat) (er : ERManager), er.waitingQueue.size ≤ fuel → HeapInv er →
      List.Pairwise ServedBefore (treatUntilEmpty clock fuel er).2
  | 0, er, _, _ => by
    rw [treatUntilEmpty_zero]
    exact List.Pairwise.nil
  | fuel + 1, er, h, hinv => by
    rw [treatUntilEmpty_succ]
    rcases Bool.eq_false_or_eq_true er.waitingQueue.empty with he | he
    · rw [if_pos he]
      exact List.Pairwise.nil
    · rw [if_neg (by simp [he])]
      have hsz : (er.treatNextPatient (clock fuel)).1.waitingQueue.size ≤ fuel := by
        rw [treatNextPatient_nonempty er (clock fuel) he]
        simp only [stl.priority_queue.pop_size]
        omega
      have hq : (er.treatNextPatient (clock fuel)).1.waitingQueue
          = er.waitingQueue.pop ComparePriority := by
        rw [treatNextPatient_nonempty er (clock fuel) he]
      have hd := (treatUntilEmpty_drain clock fuel _ hsz).2.1
      rw [hq] at hd
      refine List.Pairwise.cons ?_
        (treatUntilEmpty_sorted clock fuel _ hsz (treatNextPatient_heapInv er _ hinv))
      intro b hb
      rw [← comparePriority_eq_false]
      apply stl.priority_queue.top_max ComparePriority comparePriority_strictWeak _ hinv
      have hb2 : b ∈ (er.waitingQueue.pop ComparePriority).c := hd.subset hb
      exact (stl.priority_queue.pop_perm ComparePriority er.waitingQueue he).symm.subset
        (List.mem_cons_of_mem _ hb2)

/-- Accepted submissions all enter the waiting queue, with consecutive
identifiers from `nextPatientID`, and touch nothing else. -/
theorem addAll_valid : ∀ (subs : List Submission) (er : ERManager), ValidSubmissions subs →
    List.Perm (addAll er subs).waitingQueue.c
        (er.waitingQueue.c ++ submittedPatients er.nextPatientID subs) ∧
      (addAll er subs).treatedPatients = er.treatedPatients ∧
      (addAll er subs).nextPatientID = er.nextPatientID + subs.length
  | [], er, _ => by simp [addAll, submittedPatients]
  | s :: ss, er, h => by
    have hs : 1 ≤ s.severity ∧ s.severity ≤ 5 := h s (List.mem_cons_self _ _)
    have hss : ValidSubmissions ss := fun t ht => h t (List.mem_cons_of_mem _ ht)
    simp only [addAll, submittedPatients]
    rw [addPatient_valid er s.name s.severity s.condition s.now hs]
    obtain ⟨i1, i2, i3⟩ := addAll_valid ss
      { waitingQueue := er.waitingQueue.push ComparePriority
          (Patient.create s.name s.severity s.condition er.nextPatientID s.now)
        treatedPatients := er.treatedPatients
        nextPatientID := er.nextPatientID + 1 } hss
    refine ⟨?_, i2, ?_⟩
    · refine i1.trans ?_
      refine (List.Perm.append_right _
        (stl.priority_queue.push_perm ComparePriority er.waitingQueue _)).trans ?_
      simp only [List.cons_append]
      exact List.perm_middle.symm
    · rw [i3]
      simp only [List.length_cons, Nat.cast_add, Nat.cast_one]
      omega

/-! ## Sessions -/

theorem run_nil (er : ERManager) : run er [] = (er, []) := rfl

theorem run_cons (er : ERManager) (op : Op) (ops : List Op) :
    run er (op :: ops) = ((run (step er op).1 ops).1, (step er op).2 :: (run (step er op).1 ops).2) :=
  rfl

/-- What one menu choice can do: nothing to the state (a rejected submission,
a call on the empty queue, a display); or create a patient with identifier
`nextPatientID`, put it in the queue and advance the counter; or move `top()`
from the queue to the end of the treated list. -/
theorem step_cases (er : ERManager) (op : Op) :
    ((step er op).1 = er ∧
      (∀ es, acceptedPatients ((step er op).2 :: es) = acceptedPatients es) ∧
      (∀ es, servedPatients ((step er op).2 :: es) = servedPatients es)) ∨
    (∃ p, (step er op).2 = Event.added (AddOutcome.patientAdded p) ∧
      p.patientID = er.nextPatientID ∧
      (step er op).1.nextPatientID = er.nextPatientID + 1 ∧
      List.Perm (step er op).1.waitingQueue.c (p :: er.waitingQueue.c) ∧
      (step er op).1.treatedPatients = er.treatedPatients) ∨
    (∃ p w, (step er op).2 = Event.treated (TreatOutcome.nowTreating p w) ∧
      List.Perm er.waitingQueue.c (p :: (step er op).1.waitingQueue.c) ∧
      (step er op).1.treatedPatients = er.treatedPatients ++ [p] ∧
      (step er op).1.nextPatientID = er.nextPatientID) := by
  cases op with
  | addPatient name severity condition now =>
    by_cases hv : 1 ≤ severity ∧ severity ≤ 5
    · right; left
      simp only [step]
      rw [addPatient_valid er name severity condition now hv]
      exact ⟨_, rfl, rfl, rfl, stl.priority_queue.push_perm ComparePriority _ _, rfl⟩
    · left
      simp only [step]
      rw [addPatient_invalid er name severity condition now (by omega)]
      exact ⟨rfl, fun _ => rfl, fun _ => rfl⟩
  | treatNextPatient now =>
    rcases Bool.eq_false_or_eq_true er.waitingQueue.empty with he | he
    · left
      simp only [step]
      rw [treatNextPatient_empty er now he]
      exact ⟨rfl, fun _ => rfl, fun _ => rfl⟩
    · right; right
      simp only [step]
      rw [treatNextPatient_nonempty er now he]
      exact ⟨_, _, rfl, stl.priority_queue.pop_perm ComparePriority _ he, rfl, rfl⟩
  | displayQueue =>
    left
    simp only [step, ERManager.displayQueue]
    split <;> exact ⟨rfl, fun _ => rfl, fun _ => rfl⟩
  | displayTreated =>
    left
    simp only [step, ERManager.displayTreated]
    split <;> exact ⟨rfl, fun _ => rfl, fun _ => rfl⟩
  | displayDashboard =>
    left
    exact ⟨rfl, fun _ => rfl, fun _ => rfl⟩

theorem range_shift (base : Int) (n : Nat) :
    (List.range (n + 1)).map (fun j : Nat => base + (j : Int))
      = base :: (List.range n).map (fun j : Nat => base + 1 + (j : Int)) := by
  rw [List.range_succ_eq_map, List.map_cons, List.map_map]
  simp only [Nat.cast_zero, add_zero, List.cons.injEq, true_and]
  apply List.map_congr_left
  intro j _
  simp only [Function.comp, Nat.cast_succ]
  omega

/-- The bookkeeping of a session: the counter advances once per accepted
submission, the accepted patients carry consecutive identifiers, every accepted
patient is either waiting or treated, and the treated list grows by the
patients served, in order. -/
theorem run_effect : ∀ (ops : List Op) (er : ERManager),
    (run er ops).1.nextPatientID = er.nextPatientID + acceptedCount (run er ops).2 ∧
    (acceptedPatients (run er ops).2).map Patient.patientID
      = (List.range (acceptedCount (run er ops).2)).map
          (fun j : Nat => er.nextPatientID + (j : Int)) ∧
    List.Perm ((run er ops).1.waitingQueue.c ++ (run er ops).1.treatedPatients)
      (er.waitingQueue.c ++ er.treatedPatients ++ acceptedPatients (run er ops).2) ∧
    (run er ops).1.treatedPatients = er.treatedPatients ++ servedPatients (run er ops).2
  | [], er => by
    simp [run_nil, acceptedCount, acceptedPatients, servedPatients]
  | op :: ops, er => by
    obtain ⟨i1, i2, i3, i4⟩ := run_effect ops (step er op).1
    rw [run_cons]
    simp only [acceptedCount] at i1 i2 ⊢
    rcases step_cases er op with ⟨h1, h2, h3⟩ | ⟨p, h1, h2, h3, h4, h5⟩ | ⟨p, w, h1, h2, h3, h4⟩
    · rw [h2, h3, h1]
      rw [h1] at i1 i2 i3 i4
      exact ⟨i1, i2, i3, i4⟩
    · rw [h1]
      simp only [acceptedPatients, servedPatients, List.length_cons, List.map_cons]
      rw [h3] at i1 i2
      rw [h5] at i3 i4
      refine ⟨?_, ?_, ?_, i4⟩
      · rw [i1]
        simp only [Nat.cast_add, Nat.cast_one]
        omega
      · rw [range_shift, i2, h2]
      · refine i3.trans ?_
        refine (List.Perm.append_right _ (List.Perm.append_right _ h4)).trans ?_
        simp only [List.cons_append]
        refine List.perm_middle.symm.trans ?_
        simp only [List.append_assoc]
        exact List.Perm.refl _
    · rw [h1]
      simp only [acceptedPatients, servedPatients]
      rw [h4] at i1 i2
      rw [h3] at i3 i4
      refine ⟨i1, i2, ?_, ?_⟩
      · refine i3.trans ?_
        refine List.Perm.append_right _ ?_
        rw [← List.append_assoc]
        refine List.perm_append_comm.trans ?_
        exact List.Perm.append_right _ h2.symm
      · rw [i4]
        simp

/-! ## Serving order -/

/-- C1: after any sequence of `addPatient` calls with severities in 1..5 and
arbitrary arrival times, calling `treatNextPatient` until the queue is empty
empties the queue, serves exactly the submitted patients, and serves them in
non-increasing severity and, at equal severity, in non-decreasing
`arrivalTime`. -/
theorem serve_order_sorted (subs : List Submission) (clock : Nat → Int)
    (hvalid : ValidSubmissions subs) :
    (treatUntilEmpty clock (addAll ERManager.init subs).waitingQueue.size
        (addAll ERManager.init subs)).1.waitingQueue.empty = true ∧
    List.Perm
      (treatUntilEmpty clock (addAll ERManager.init subs).waitingQueue.size
        (addAll ERManager.init subs)).2
      (submittedPatients 1001 subs) ∧
    List.Pairwise ServedBefore
      (treatUntilEmpty clock (addAll ERManager.init subs).waitingQueue.size
        (addAll ERManager.init subs)).2 := by
  have hd := treatUntilEmpty_drain clock _ (addAll ERManager.init subs) (Nat.le_refl _)
  have ha := addAll_valid subs ERManager.init hvalid
  refine ⟨hd.1, hd.2.1.trans ?_, ?_⟩
  · simpa [ERManager.init] using ha.1
  · exact treatUntilEmpty_sorted clock _ _ (Nat.le_refl _)
      (addAll_heapInv subs _ init_heapInv)

/-- C1, witness: A (3), B (5), C (3) submitted in that order, A before C, are
served B, A, C. -/
theorem serve_order_sorted_witness :
    ValidSubmissions scenarioABC ∧
    ((treatUntilEmpty (constClock 103) (addAll ERManager.init scenarioABC).waitingQueue.size
        (addAll ERManager.init scenarioABC)).1.waitingQueue.empty = true ∧
      List.Perm
        (treatUntilEmpty (constClock 103) (addAll ERManager.init scenarioABC).waitingQueue.size
          (addAll ERManager.init scenarioABC)).2
        (submittedPatients 1001 scenarioABC) ∧
      List.Pairwise ServedBefore
        (treatUntilEmpty (constClock 103) (addAll ERManager.init scenarioABC).waitingQueue.size
          (addAll ERManager.init scenarioABC)).2) ∧
    (treatUntilEmpty (constClock 103) (addAll ERManager.init scenarioABC).waitingQueue.size
        (addAll ERManager.init scenarioABC)).2.map Patient.name = ["B", "A", "C"] :=
  ⟨by decide, serve_order_sorted scenarioABC (constClock 103) (by decide), by decide⟩

/-- The scenario of C1 at arbitrary clock values: whenever A's arrival time is
earlier than C's, the three calls serve B, then A, then C. -/
theorem scenario_any_times (tA tB tC : Int) (clock : Nat → Int) (h : tA < tC) :
    (treatUntilEmpty clock 3
        (addAll ERManager.init
          [⟨"A", 3, "fever", tA⟩, ⟨"B", 5, "chest pain", tB⟩, ⟨"C", 3, "cough", tC⟩])).2
      = [⟨"B", 5, "chest pain", tB, 1002⟩, ⟨"A", 3, "fever", tA, 1001⟩,
         ⟨"C", 3, "cough", tC, 1003⟩] := by
  have h1 : ¬ tC < tA := by omega
  simp [treatUntilEmpty, addAll, ERManager.addPatient, ERManager.treatNextPatient,
    ERManager.init, stl.priority_queue.push, stl.priority_queue.pop, stl.priority_queue.top,
    stl.priority_queue.empty, stl.push_heap, stl.push_heap_aux, stl.push_heap_loop,
    stl.pop_heap, stl.adjust_heap, stl.adjust_heap_loop, ComparePriority, Patient.create, h1]

/-! ## The next case -/

/-- C2, counterexample: after four admissions of equal severity within one
second and one treatment, the next case is patient 1003 although patient 1002,
with the same severity and the same `arrivalTime`, is still waiting; so `top()`
is not least under the key (severity descending, `arrivalTime` ascending,
`patientID` ascending). -/
theorem next_case_ignores_patientID :
    (run ERManager.init sameSecondSession).1.waitingQueue.empty = false ∧
    (run ERManager.init sameSecondSession).1.waitingQueue.top
      = ⟨"P3", 3, "sprain", 100, 1003⟩ ∧
    (⟨"P2", 3, "cough", 100, 1002⟩ : Patient)
      ∈ (run ERManager.init sameSecondSession).1.waitingQueue.c ∧
    ¬ (∀ p ∈ (run ERManager.init sameSecondSession).1.waitingQueue.c,
        KeyLe (run ERManager.init sameSecondSession).1.waitingQueue.top p) := by
  decide

/-- C2, amended: in every state a session can reach with a non-empty waiting
queue, the case reported as next (`waitingQueue.top()`) is a pending case, it is
the one `treatNextPatient` serves, and no pending case has a higher severity or
the same severity and an earlier `arrivalTime`. -/
theorem next_case_is_maximal (ops : List Op) (now : Int)
    (h : (run ERManager.init ops).1.waitingQueue.empty = false) :
    (run ERManager.init ops).1.waitingQueue.top ∈ (run ERManager.init ops).1.waitingQueue.c ∧
    ((run ERManager.init ops).1.treatNextPatient now).2
      = TreatOutcome.nowTreating (run ERManager.init ops).1.waitingQueue.top
          (now - (run ERManager.init ops).1.waitingQueue.top.arrivalTime) ∧
    ∀ p ∈ (run ERManager.init ops).1.waitingQueue.c,
      ServedBefore (run ERManager.init ops).1.waitingQueue.top p := by
  refine ⟨?_, ?_, ?_⟩
  · exact (stl.priority_queue.pop_perm ComparePriority _ h).symm.subset
      (List.mem_cons_self _ _)
  · rw [treatNextPatient_nonempty _ now h]
  · intro p hp
    rw [← comparePriority_eq_false]
    exact stl.priority_queue.top_max ComparePriority comparePriority_strictWeak _
      (run_heapInv ops _ init_heapInv) p hp

/-- C2, witness: the amended statement on a session with rejected submissions
and display calls interleaved. -/
theorem next_case_is_maximal_witness :
    (run ERManager.init mixedSession).1.waitingQueue.empty = false ∧
    ((run ERManager.init mixedSession).1.waitingQueue.top
        ∈ (run ERManager.init mixedSession).1.waitingQueue.c ∧
      ((run ERManager.init mixedSession).1.treatNextPatient 20).2
        = TreatOutcome.nowTreating (run ERManager.init mixedSession).1.waitingQueue.top
            (20 - (run ERManager.init mixedSession).1.waitingQueue.top.arrivalTime) ∧
      ∀ p ∈ (run ERManager.init mixedSession).1.waitingQueue.c,
        ServedBefore (run ERManager.init mixedSession).1.waitingQueue.top p) :=
  ⟨by decide, next_case_is_maximal mixedSession 20 (by decide)⟩

/-! ## Rejected submissions and the empty queue -/

/-- C3: `addPatient` with a severity below 1 or above 5 reports the invalid
severity and returns the manager unchanged (waiting queue, treated list and
`nextPatientID`); with a severity in 1..5 it reports the patient created, the
queue holds that patient in addition to its old elements, its size grows by
exactly one, the treated list is unchanged and `nextPatientID` advances by
one. -/
theorem addPatient_checks_severity (er : ERManager) (name : String) (severity : Int)
    (condition : String) (now : Int) :
    (severity < 1 ∨ 5 < severity →
      (er.addPatient name severity condition now).2 = AddOutcome.invalidSeverity ∧
      (er.addPatient name severity condition now).1 = er) ∧
    (1 ≤ severity ∧ severity ≤ 5 →
      (er.addPatient name severity condition now).2
        = AddOutcome.patientAdded
            (Patient.create name severity condition er.nextPatientID now) ∧
      (er.addPatient name severity condition now).1.waitingQueue.size
        = er.waitingQueue.size + 1 ∧
      List.Perm (er.addPatient name severity condition now).1.waitingQueue.c
        (Patient.create name severity condition er.nextPatientID now :: er.waitingQueue.c) ∧
      (er.addPatient name severity condition now).1.treatedPatients = er.treatedPatients ∧
      (er.addPatient name severity condition now).1.nextPatientID = er.nextPatientID + 1) := by
  constructor
  · intro h
    rw [addPatient_invalid er name severity condition now h]
    exact ⟨rfl, rfl⟩
  · intro h
    rw [addPatient_valid er name severity condition now h]
    exact ⟨rfl, stl.priority_queue.push_size ComparePriority _ _,
      stl.priority_queue.push_perm ComparePriority _ _, rfl, rfl⟩

/-- C3, witness: severities 0, 6 and 7 are rejected and severity 3 is accepted,
on a manager with two patients waiting. -/
theorem addPatient_checks_severity_witness :
    ((twoWaiting.addPatient "X" 0 "none" 20).2 = AddOutcome.invalidSeverity ∧
      (twoWaiting.addPatient "X" 0 "none" 20).1 = twoWaiting) ∧
    ((twoWaiting.addPatient "X" 6 "none" 20).2 = AddOutcome.invalidSeverity ∧
      (twoWaiting.addPatient "X" 6 "none" 20).1 = twoWaiting) ∧
    ((ERManager.init.addPatient "X" 7 "none" 20).2 = AddOutcome.invalidSeverity ∧
      (ERManager.init.addPatient "X" 7 "none" 20).1 = ERManager.init) ∧
    (ERManager.init.addPatient "X" 7 "none" 20).1.waitingQueue.size = 0 ∧
    (twoWaiting.addPatient "C" 3 "cough" 20).1.waitingQueue.size
      = twoWaiting.waitingQueue.size + 1 :=
  ⟨(addPatient_checks_severity twoWaiting "X" 0 "none" 20).1 (by decide),
   (addPatient_checks_severity twoWaiting "X" 6 "none" 20).1 (by decide),
   (addPatient_checks_severity ERManager.init "X" 7 "none" 20).1 (by decide),
   by decide,
   ((addPatient_checks_severity twoWaiting "C" 3 "cough" 20).2 (by decide)).2.1⟩

/-- C4: `treatNextPatient` reports that no patients are waiting exactly when
the waiting queue is empty, and then it returns the manager unchanged: treated
list, waiting queue and `nextPatientID`. -/
theorem treatNextPatient_empty_outcome (er : ERManager) (now : Int) :
    ((er.treatNextPatient now).2 = TreatOutcome.noPatientsWaiting
      ↔ er.waitingQueue.empty = true) ∧
    (er.waitingQueue.empty = true → (er.treatNextPatient now).1 = er) := by
  constructor
  · constructor
    · intro h
      rcases Bool.eq_false_or_eq_true er.waitingQueue.empty with he | he
      · exact he
      · rw [treatNextPatient_nonempty er now he] at h
        exact absurd h (by simp)
    · intro he
      rw [treatNextPatient_empty er now he]
  · intro he
    rw [treatNextPatient_empty er now he]

/-- C4, witness: on the fresh manager the call reports the empty queue and
changes nothing; with two patients waiting it does not report it. -/
theorem treatNextPatient_empty_outcome_witness :
    ERManager.init.waitingQueue.empty = true ∧
    (ERManager.init.treatNextPatient 7).2 = TreatOutcome.noPatientsWaiting ∧
    (ERManager.init.treatNextPatient 7).1 = ERManager.init ∧
    ¬ (twoWaiting.treatNextPatient 7).2 = TreatOutcome.noPatientsWaiting :=
  ⟨by decide,
   (treatNextPatient_empty_outcome ERManager.init 7).1.mpr (by decide),
   (treatNextPatient_empty_outcome ERManager.init 7).2 (by decide),
   fun h => absurd ((treatNextPatient_empty_outcome twoWaiting 7).1.mp h) (by decide)⟩

/-! ## Counting pending and served cases -/

theorem submittedPatients_length : ∀ (subs : List Submission) (base : Int),
    (submittedPatients base subs).length = subs.length
  | [], _ => rfl
  | _ :: ss, base => by
    simp only [submittedPatients, List.length_cons]
    rw [submittedPatients_length ss]

/-- Each of `k` calls of `treatNextPatient` on a queue of at least `k` patients
finds the queue non-empty: the queue shrinks by `k` and the treated list grows
by `k`. -/
theorem treatTimes_counts (clock : Nat → Int) : ∀ (k : Nat) (er : ERManager),
    k ≤ er.waitingQueue.size →
      (treatTimes clock k er).waitingQueue.size = er.waitingQueue.size - k ∧
      (treatTimes clock k er).treatedPatients.length = er.treatedPatients.length + k
  | 0, er, _ => ⟨rfl, rfl⟩
  | k + 1, er, h => by
    have he : er.waitingQueue.empty = false := (empty_false_iff_size _).mpr (by omega)
    simp only [treatTimes]
    rw [treatNextPatient_nonempty er (clock k) he]
    dsimp only
    obtain ⟨i1, i2⟩ := treatTimes_counts clock k
      { waitingQueue := er.waitingQueue.pop ComparePriority
        treatedPatients := er.treatedPatients ++ [er.waitingQueue.top]
        nextPatientID := er.nextPatientID }
      (by simp only [stl.priority_queue.pop_size]; omega)
    simp only [stl.priority_queue.pop_size, List.length_append, List.length_singleton] at i1 i2
    exact ⟨by omega, by omega⟩

/-- C5: starting from a fresh manager, after any session with `n` accepted
`addPatient` calls and `k` `treatNextPatient` calls that found the queue
non-empty (whatever else is interleaved), `k ≤ n`, `waitingQueue.size()` is
`n - k` and `treatedPatients.size()` is `k`, and these are the figures the
dashboard prints; in particular `n` accepted submissions followed by `k ≤ n`
calls of `treatNextPatient` leave `n - k` pending and `k` served. -/
theorem pending_and_served_counts (ops : List Op) (subs : List Submission) (k : Nat)
    (clock : Nat → Int) :
    (servedCount (run ERManager.init ops).2 ≤ acceptedCount (run ERManager.init ops).2 ∧
      (run ERManager.init ops).1.waitingQueue.size
        = acceptedCount (run ERManager.init ops).2 - servedCount (run ERManager.init ops).2 ∧
      (run ERManager.init ops).1.treatedPatients.length
        = servedCount (run ERManager.init ops).2 ∧
      ((run ERManager.init ops).1.displayDashboard).2.patientsWaiting
        = acceptedCount (run ERManager.init ops).2 - servedCount (run ERManager.init ops).2 ∧
      ((run ERManager.init ops).1.displayDashboard).2.patientsTreated
        = servedCount (run ERManager.init ops).2 ∧
      ((run ERManager.init ops).1.displayDashboard).2.totalProcessed
        = acceptedCount (run ERManager.init ops).2) ∧
    (ValidSubmissions subs → k ≤ subs.length →
      (treatTimes clock k (addAll ERManager.init subs)).waitingQueue.size = subs.length - k ∧
      (treatTimes clock k (addAll ERManager.init subs)).treatedPatients.length = k) := by
  constructor
  · obtain ⟨_, _, i3, i4⟩ := run_effect ops ERManager.init
    have hlen := i3.length_eq
    have h4 := congrArg List.length i4
    rw [show ERManager.init.waitingQueue.c = [] from rfl,
      show ERManager.init.treatedPatients = [] from rfl] at hlen
    rw [show ERManager.init.treatedPatients = [] from rfl] at h4
    simp only [List.length_append, List.length_nil, List.nil_append, Nat.zero_add] at hlen h4
    simp only [servedCount, acceptedCount, ERManager.displayDashboard, stl.priority_queue.size]
    refine ⟨?_, ?_, ?_, ?_, ?_, ?_⟩ <;> omega
  · intro hv hk
    obtain ⟨a1, a2, _⟩ := addAll_valid subs ERManager.init hv
    have hsz : (addAll ERManager.init subs).waitingQueue.size = subs.length := by
      have := a1.length_eq
      simpa [ERManager.init, submittedPatients_length, stl.priority_queue.size] using this
    obtain ⟨t1, t2⟩ := treatTimes_counts clock k (addAll ERManager.init subs) (by omega)
    rw [a2] at t2
    rw [hsz] at t1
    exact ⟨t1, by simpa [ERManager.init] using t2⟩

/-- C5, witness: a session with three accepted submissions, two rejected ones,
one call on the empty queue and one successful treatment leaves two pending and
one served; three accepted submissions followed by two treatments leave one
pending and two served. -/
theorem pending_and_served_counts_witness :
    acceptedCount (run ERManager.init mixedSession).2 = 3 ∧
    servedCount (run ERManager.init mixedSession).2 = 1 ∧
    (run ERManager.init mixedSession).1.waitingQueue.size = 3 - 1 ∧
    (run ERManager.init mixedSession).1.treatedPatients.length = 1 ∧
    ValidSubmissions scenarioABC ∧
    (treatTimes (constClock 200) 2 (addAll ERManager.init scenarioABC)).waitingQueue.size
      = scenarioABC.length - 2 ∧
    (treatTimes (constClock 200) 2 (addAll ERManager.init scenarioABC)).treatedPatients.length
      = 2 :=
  ⟨by decide, by decide,
   by
    have h := (pending_and_served_counts mixedSession scenarioABC 2 (constClock 200)).1.2.1
    have e1 : acceptedCount (run ERManager.init mixedSession).2 = 3 := by decide
    have e2 : servedCount (run ERManager.init mixedSession).2 = 1 := by decide
    rw [e1, e2] at h
    exact h,
   by
    have h := (pending_and_served_counts mixedSession scenarioABC 2 (constClock 200)).1.2.2.1
    have e2 : servedCount (run ERManager.init mixedSession).2 = 1 := by decide
    rw [e2] at h
    exact h,
   by decide,
   ((pending_and_served_counts mixedSession scenarioABC 2 (constClock 200)).2
      (by decide) (by decide)).1,
   ((pending_and_served_counts mixedSession scenarioABC 2 (constClock 200)).2
      (by decide) (by decide)).2⟩

/-! ## Moving the served case -/

/-- C6: with a non-empty waiting queue, `treatNextPatient` moves exactly the
case `waitingQueue.top()` reported before the call: it reports that patient,
the treated list afterwards is the treated list before with that patient (all
fields) appended, the waiting queue before holds that patient and what the
queue holds afterwards, its size drops by one, and `nextPatientID` is
unchanged; over a whole session the treated list only grows at its end, by the
patients served, in order. -/
theorem treatNextPatient_moves_top (er : ERManager) (now : Int) (ops : List Op)
    (h : er.waitingQueue.empty = false) :
    (er.treatNextPatient now).2
      = TreatOutcome.nowTreating er.waitingQueue.top (now - er.waitingQueue.top.arrivalTime) ∧
    (er.treatNextPatient now).1.treatedPatients
      = er.treatedPatients ++ [er.waitingQueue.top] ∧
    List.Perm er.waitingQueue.c
      (er.waitingQueue.top :: (er.treatNextPatient now).1.waitingQueue.c) ∧
    (er.treatNextPatient now).1.waitingQueue.size + 1 = er.waitingQueue.size ∧
    (er.treatNextPatient now).1.nextPatientID = er.nextPatientID ∧
    (run er ops).1.treatedPatients = er.treatedPatients ++ servedPatients (run er ops).2 := by
  have hpos : 0 < er.waitingQueue.size := (empty_false_iff_size _).mp h
  rw [treatNextPatient_nonempty er now h]
  refine ⟨rfl, rfl, stl.priority_queue.pop_perm ComparePriority _ h, ?_, rfl,
    (run_effect ops er).2.2.2⟩
  simp only [stl.priority_queue.pop_size]
  omega

/-- C6, witness: with five patients waiting and one treated, the call appends
the patient `top()` reported to the treated list and removes it from the
queue. -/
theorem treatNextPatient_moves_top_witness :
    fiveWaiting.waitingQueue.empty = false ∧
    fiveWaiting.waitingQueue.top = ⟨"E", 5, "stroke", 14, 1005⟩ ∧
    ((fiveWaiting.treatNextPatient 16).2
        = TreatOutcome.nowTreating fiveWaiting.waitingQueue.top
            (16 - fiveWaiting.waitingQueue.top.arrivalTime) ∧
      (fiveWaiting.treatNextPatient 16).1.treatedPatients
        = fiveWaiting.treatedPatients ++ [fiveWaiting.waitingQueue.top] ∧
      List.Perm fiveWaiting.waitingQueue.c
        (fiveWaiting.waitingQueue.top :: (fiveWaiting.treatNextPatient 16).1.waitingQueue.c) ∧
      (fiveWaiting.treatNextPatient 16).1.waitingQueue.size + 1
        = fiveWaiting.waitingQueue.size ∧
      (fiveWaiting.treatNextPatient 16).1.nextPatientID = fiveWaiting.nextPatientID ∧
      (run fiveWaiting mixedSession).1.treatedPatients
        = fiveWaiting.treatedPatients ++ servedPatients (run fiveWaiting mixedSession).2) :=
  ⟨by decide, by decide, treatNextPatient_moves_top fiveWaiting 16 mixedSession (by decide)⟩

/-! ## The displayed queue -/

theorem displayQueueLoop_zero (temp : stl.priority_queue Patient) :
    ERManager.displayQueueLoop 0 temp = [] := rfl

theorem displayQueueLoop_succ (fuel : Nat) (temp : stl.priority_queue Patient) :
    ERManager.displayQueueLoop (fuel + 1) temp =
      if !temp.empty then
        temp.top :: ERManager.displayQueueLoop fuel (temp.pop ComparePriority)
      else [] := rfl

/-- The loop of `displayQueue` on a copy of the queue prints what
`treatNextPatient`, called until the queue is empty, serves. -/
theorem displayQueueLoop_eq_treat (clock : Nat → Int) :
    ∀ (fuel : Nat) (er : ERManager),
      ERManager.displayQueueLoop fuel er.waitingQueue = (treatUntilEmpty clock fuel er).2
  | 0, _ => rfl
  | fuel + 1, er => by
    rw [displayQueueLoop_succ, treatUntilEmpty_succ]
    rcases Bool.eq_false_or_eq_true er.waitingQueue.empty with he | he
    · rw [if_pos he, if_neg (by simp [he])]
    · rw [if_pos (by simp [he]), if_neg (by simp [he])]
      have ih := displayQueueLoop_eq_treat clock fuel (er.treatNextPatient (clock fuel)).1
      rw [treatNextPatient_nonempty er (clock fuel) he] at ih ⊢
      exact congrArg (List.cons er.waitingQueue.top) ih

/-- C7: the rows `displayQueue` lists are, element for element, the patients
that `treatNextPatient` called until the queue is empty would serve from the
same state (which does empty the queue); they are a rearrangement of the
pending cases, so each pending case is listed exactly once and their number is
`size()`; and `displayQueue` returns the manager unchanged. -/
theorem displayQueue_lists_serving_order (er : ERManager) (clock : Nat → Int) :
    er.displayQueue.2 = (treatUntilEmpty clock er.waitingQueue.size er).2 ∧
    (treatUntilEmpty clock er.waitingQueue.size er).1.waitingQueue.empty = true ∧
    List.Perm er.displayQueue.2 er.waitingQueue.c ∧
    er.displayQueue.2.length = er.waitingQueue.size ∧
    er.displayQueue.1 = er := by
  have hd := treatUntilEmpty_drain clock er.waitingQueue.size er (Nat.le_refl _)
  have heq : er.displayQueue.2 = (treatUntilEmpty clock er.waitingQueue.size er).2 := by
    unfold ERManager.displayQueue
    rcases Bool.eq_false_or_eq_true er.waitingQueue.empty with he | he
    · rw [if_pos he]
      have h0 : er.waitingQueue.size = 0 := (empty_iff_size _).mp he
      rw [h0]
      rfl
    · rw [if_neg (by simp [he])]
      exact displayQueueLoop_eq_treat clock _ er
  have h1 : er.displayQueue.1 = er := by
    unfold ERManager.displayQueue
    split <;> rfl
  refine ⟨heq, hd.1, ?_, ?_, h1⟩
  · rw [heq]
    exact hd.2.1
  · rw [heq]
    exact hd.2.1.length_eq

/-! ## Patient identifiers -/

/-- C8: starting from a fresh manager, in every session the `j`-th accepted
`addPatient` call (`j = 0, 1, 2, ...`) creates the patient with `patientID`
`1001 + j`, whatever rejected submissions, treatments and display calls are
interleaved; `nextPatientID` is `1001` plus the number of accepted calls; the
patients in the waiting queue and the treated list together have pairwise
distinct identifiers, each below `nextPatientID` (identifiers as unbounded
integers). -/
theorem patientIDs_consecutive_and_unique (ops : List Op) :
    (acceptedPatients (run ERManager.init ops).2).map Patient.patientID
      = (List.range (acceptedCount (run ERManager.init ops).2)).map
          (fun j : Nat => 1001 + (j : Int)) ∧
    (run ERManager.init ops).1.nextPatientID
      = 1001 + acceptedCount (run ERManager.init ops).2 ∧
    (((run ERManager.init ops).1.waitingQueue.c
        ++ (run ERManager.init ops).1.treatedPatients).map Patient.patientID).Nodup ∧
    ∀ p ∈ (run ERManager.init ops).1.waitingQueue.c
        ++ (run ERManager.init ops).1.treatedPatients,
      1001 ≤ p.patientID ∧ p.patientID < (run ERManager.init ops).1.nextPatientID := by
  obtain ⟨i1, i2, i3, _⟩ := run_effect ops ERManager.init
  rw [show ERManager.init.nextPatientID = 1001 from rfl] at i1 i2
  rw [show ERManager.init.waitingQueue.c = [] from rfl,
    show ERManager.init.treatedPatients = [] from rfl] at i3
  simp only [List.append_nil, List.nil_append] at i3
  have hperm := i3.map Patient.patientID
  rw [i2] at hperm
  refine ⟨i2, i1, ?_, ?_⟩
  · rw [hperm.nodup_iff]
    refine List.Nodup.map ?_ (List.nodup_range _)
    intro a b hab
    simp only at hab
    omega
  · intro p hp
    have hm : p.patientID ∈ List.map (fun j : Nat => (1001 : Int) + (j : Int))
        (List.range (acceptedCount (run ERManager.init ops).2)) :=
      hperm.subset (List.mem_map_of_mem _ hp)
    obtain ⟨j, hj, hpj⟩ := List.mem_map.mp hm
    rw [List.mem_range] at hj
    rw [i1, ← hpj]
    constructor <;> omega

/-! ## The reported wait -/

/-- C9, counterexample: a patient admitted at clock value 10 and treated at
clock value 5 is reported with the wait `-5`, not with `max(0, 5 - 10) = 0`. -/
theorem reported_wait_not_clamped :
    oneWaiting.waitingQueue.top.arrivalTime = 10 ∧
    reportedWait (oneWaiting.treatNextPatient 5).2 = some (-5) ∧
    reportedWait (oneWaiting.treatNextPatient 5).2
      ≠ some (max 0 (5 - oneWaiting.waitingQueue.top.arrivalTime)) := by
  decide

/-- C9, amended: for every served case and every service time `now`, the wait
the program reports is `now - arrivalTime`, without clamping: it equals
`max(0, now - arrivalTime)` exactly when `now` is not earlier than
`arrivalTime`, and is negative when `now` is earlier. -/
theorem reported_wait_is_difference (er : ERManager) (now : Int)
    (h : er.waitingQueue.empty = false) :
    reportedWait (er.treatNextPatient now).2
      = some (now - er.waitingQueue.top.arrivalTime) ∧
    (reportedWait (er.treatNextPatient now).2
        = some (max 0 (now - er.waitingQueue.top.arrivalTime))
      ↔ er.waitingQueue.top.arrivalTime ≤ now) := by
  rw [treatNextPatient_nonempty er now h]
  simp only [reportedWait, Option.some.injEq, true_and]
  constructor
  · intro he
    have := le_max_left 0 (now - er.waitingQueue.top.arrivalTime)
    omega
  · intro hle
    rw [max_eq_right (by omega)]

/-- C9, witness: with two patients waiting, the one served first arrived at 12;
served at 30 the reported wait is 18. -/
theorem reported_wait_is_difference_witness :
    twoWaiting.waitingQueue.empty = false ∧
    twoWaiting.waitingQueue.top.arrivalTime = 12 ∧
    (reportedWait (twoWaiting.treatNextPatient 30).2
        = some (30 - twoWaiting.waitingQueue.top.arrivalTime) ∧
      (reportedWait (twoWaiting.treatNextPatient 30).2
          = some (max 0 (30 - twoWaiting.waitingQueue.top.arrivalTime))
        ↔ twoWaiting.waitingQueue.top.arrivalTime ≤ 30)) :=
  ⟨by decide, by decide, reported_wait_is_difference twoWaiting 30 (by decide)⟩

/-! ## The comparator -/

/-- C10: `ComparePriority` is a strict weak ordering on patients: irreflexive,
asymmetric and transitive; two patients are incomparable (neither compares
below the other) exactly when they have equal severity and equal
`arrivalTime`, whatever their names, conditions and identifiers; and
incomparability is transitive. -/
theorem comparePriority_strict_weak_ordering :
    (∀ a : Patient, ComparePriority a a = false) ∧
    (∀ a b : Patient, ComparePriority a b = true → ComparePriority b a = false) ∧
    (∀ a b c : Patient, ComparePriority a b = true → ComparePriority b c = true →
      ComparePriority a c = true) ∧
    (∀ a b : Patient, (ComparePriority a b = false ∧ ComparePriority b a = false)
      ↔ (a.severity = b.severity ∧ a.arrivalTime = b.arrivalTime)) ∧
    (∀ a b c : Patient,
      (ComparePriority a b = false ∧ ComparePriority b a = false) →
      (ComparePriority b c = false ∧ ComparePriority c b = false) →
      (ComparePriority a c = false ∧ ComparePriority c a = false)) := by
  have hinc : ∀ a b : Patient, (ComparePriority a b = false ∧ ComparePriority b a = false)
      ↔ (a.severity = b.severity ∧ a.arrivalTime = b.arrivalTime) := by
    intro a b
    rw [comparePriority_eq_false, comparePriority_eq_false]
    unfold ServedBefore
    constructor
    · rintro ⟨⟨h1, h2⟩, h3, h4⟩
      have e : a.severity = b.severity := by omega
      have := h2 e
      have := h4 e.symm
      exact ⟨e, by omega⟩
    · rintro ⟨h1, h2⟩
      exact ⟨⟨by omega, fun _ => by omega⟩, by omega, fun _ => by omega⟩
  refine ⟨comparePriority_strictWeak.irrefl, comparePriority_strictWeak.asymm,
    comparePriority_strictWeak.trans, hinc, ?_⟩
  intro a b c hab hbc
  rw [hinc] at hab hbc ⊢
  exact ⟨by omega, by omega⟩

/-- C10, witness: two patients that differ in name, condition and identifier
only are incomparable, and a patient of lower severity compares below one of
higher severity and not conversely. -/
theorem comparePriority_strict_weak_ordering_witness :
    (ComparePriority ⟨"A", 3, "fever", 100, 1001⟩ ⟨"C", 3, "cough", 100, 1003⟩ = false ∧
      ComparePriority ⟨"C", 3, "cough", 100, 1003⟩ ⟨"A", 3, "fever", 100, 1001⟩ = false) ∧
    ComparePriority ⟨"B", 5, "chest pain", 101, 1002⟩ ⟨"A", 3, "fever", 100, 1001⟩ = false :=
  ⟨(comparePriority_strict_weak_ordering.2.2.2.1
      ⟨"A", 3, "fever", 100, 1001⟩ ⟨"C", 3, "cough", 100, 1003⟩).mpr (by decide),
   comparePriority_strict_weak_ordering.2.1
      ⟨"A", 3, "fever", 100, 1001⟩ ⟨"B", 5, "chest pain", 101, 1002⟩ (by decide)⟩
